import Mathlib

set_option maxRecDepth 16000

/-!
Verification of the website-articles-build pipeline.

Strings from the TypeScript source are modelled as `List Char`.  JavaScript
`String.prototype.replace` with a global regex of a literal pattern is
modelled by `replaceAllL` (leftmost, non-overlapping, single pass);
`replace` with a plain string pattern is modelled by `replaceFirstL`
(first occurrence only, as in ECMAScript).  `String.prototype.includes`
is `occursIn`, `String.prototype.split` with a one-character separator is
`splitOnChar`.
-/

namespace SiteBuild

/-- Source `occursIn pat s` models JavaScript `s.includes(pat)` for a nonempty
pattern: does `pat` occur as a contiguous substring of `s`? -/
def occursIn (pat : List Char) : List Char → Bool
  | [] => pat.isPrefixOf ([] : List Char)
  | c :: rest => pat.isPrefixOf (c :: rest) || occursIn pat rest

/-- Models JavaScript `s.replace(pat, rep)` with a plain-string pattern:
only the first occurrence of `pat` is replaced. -/
def replaceFirstL (pat rep : List Char) : List Char → List Char
  | [] => []
  | c :: rest =>
    if pat.isPrefixOf (c :: rest) then rep ++ (c :: rest).drop pat.length
    else c :: replaceFirstL pat rep rest

/-- The suffix of `s` strictly after the first occurrence of `pat`
(`none` when `pat` does not occur).  In the source, `generateToc` computes
this value as `markdown.split(TOC_MARKER).slice(1).join(TOC_MARKER)`:
splitting on every occurrence and re-joining all parts but the first with
the separator reinserted yields exactly the text after the first
occurrence. -/
def afterFirstL (pat : List Char) : List Char → Option (List Char)
  | [] => if pat.isPrefixOf ([] : List Char) then some [] else none
  | c :: rest =>
    if pat.isPrefixOf (c :: rest) then some ((c :: rest).drop pat.length)
    else afterFirstL pat rest

/-- Fuel-driven worker for `replaceAllL`; one unit of fuel is spent per
consumed input character, so `s.length` fuel always suffices. -/
def replaceAllF (pat rep : List Char) : Nat → List Char → List Char
  | 0, s => s
  | _ + 1, [] => []
  | fuel + 1, c :: rest =>
    if pat.isPrefixOf (c :: rest) && !pat.isEmpty then
      rep ++ replaceAllF pat rep fuel ((c :: rest).drop pat.length)
    else c :: replaceAllF pat rep fuel rest

/-- Models JavaScript `s.replace(/pat/g, rep)` for a literal nonempty
pattern: every occurrence is replaced, scanning left to right without
rescanning replacement text. -/
def replaceAllL (pat rep s : List Char) : List Char :=
  replaceAllF pat rep s.length s

/-- Models JavaScript `s.split(sep)` for a one-character separator. -/
def splitOnChar (sep : Char) : List Char → List (List Char)
  | [] => [[]]
  | c :: rest =>
    if c = sep then [] :: splitOnChar sep rest
    else match splitOnChar sep rest with
      | [] => [[c]]
      | p :: ps => (c :: p) :: ps

/-! ### src/shared/html.utils.ts -/

/-- Source `stripHtmlTags` (src/shared/html.utils.ts, also duplicated inside
gfm-heading-id.ts and list.utils.ts): `html.replace(/<[^>]*>/g, '')`.
A match is a literal `<`, a run of characters other than `>`, then `>`;
an unterminated `<` does not match.  Implemented as a direct scanner with
fuel (one unit per consumed character). -/
def stripTagsF : Nat → List Char → List Char
  | 0, s => s
  | _ + 1, [] => []
  | fuel + 1, c :: rest =>
    if c = '<' then
      match rest.dropWhile (fun d => d ≠ '>') with
      | [] => c :: stripTagsF fuel rest
      | _ :: after => stripTagsF fuel after
    else c :: stripTagsF fuel rest

/-- Source `stripHtmlTags(html)` from src/shared/html.utils.ts. -/
def stripHtmlTags (html : List Char) : List Char :=
  stripTagsF html.length html

/-- The apostrophe character (U+0027), written via its code point. -/
def apos : Char := Char.ofNat 39

/-- Source `escapeHtml(text)` from src/shared/html.utils.ts: the five chained
`.replace(/x/g, entity)` calls, applied in source order
`&`, `"`, `'`, `<`, `>`. -/
def escapeHtml (text : List Char) : List Char :=
  replaceAllL ['>'] ("&gt;".toList)
    (replaceAllL ['<'] ("&lt;".toList)
      (replaceAllL [apos] ("&#39;".toList)
        (replaceAllL ['"'] ("&quot;".toList)
          (replaceAllL ['&'] ("&amp;".toList) text))))

/-- Source `decodeHtmlEntities(html)` from src/shared/html.utils.ts (the same
function body appears in gfm-heading-id.ts): seven chained
`.replace(/&entity;/g, char)` calls in source order. -/
def decodeHtmlEntities (html : List Char) : List Char :=
  replaceAllL ("&#x2F;".toList) ['/']
    (replaceAllL ("&#x27;".toList) [apos]
      (replaceAllL ("&#39;".toList) [apos]
        (replaceAllL ("&quot;".toList) ['"']
          (replaceAllL ("&gt;".toList) ['>']
            (replaceAllL ("&lt;".toList) ['<']
              (replaceAllL ("&amp;".toList) ['&'] html))))))

/-- Per-character view of `escapeHtml`: since the five escape patterns are
single characters and no replacement text contains a character that a later
step rewrites into a different entity, the five chained replaces act
independently on each character.  `escBlock c` is the escaped text of the
single character `c`. -/
def escBlock (c : Char) : List Char :=
  if c = '&' then ("&amp;".toList)
  else if c = '"' then ("&quot;".toList)
  else if c = apos then ("&#39;".toList)
  else if c = '<' then ("&lt;".toList)
  else if c = '>' then ("&gt;".toList)
  else [c]

/-- Block view of the escaped text after decode step 1 (`&amp;` → `&`). -/
def decBlock1 (c : Char) : List Char :=
  if c = '&' then ['&'] else escBlock c

/-- Block view after decode step 2 (`&lt;` → `<`). -/
def decBlock2 (c : Char) : List Char :=
  if c = '<' then ['<'] else decBlock1 c

/-- Block view after decode step 3 (`&gt;` → `>`). -/
def decBlock3 (c : Char) : List Char :=
  if c = '>' then ['>'] else decBlock2 c

/-- Block view after decode step 4 (`&quot;` → `"`). -/
def decBlock4 (c : Char) : List Char :=
  if c = '"' then ['"'] else decBlock3 c

/-- Block view after decode step 5 (`&#39;` → the apostrophe); at this
point every block is again the single character it came from. -/
def decBlock5 (c : Char) : List Char :=
  if c = apos then [apos] else decBlock4 c

/-- Concatenation of the per-character blocks of a text. -/
def blocks (f : Char → List Char) (t : List Char) : List Char :=
  (t.map f).flatten

/-! ### Entry model and compareEntries (base.utils.ts) -/

/-- The fields of `EntryMetaBase` (base.types.ts) that the sorting and
yaml-normalization logic reads.  `hidden` and `sticky` are declared
optional (`hidden?: boolean`, `sticky?: boolean`), and `getEntryList`
sorts *before* `applyDefaults` fills them in, so the comparator can see
`undefined`: the fields are modelled as `Option Bool` with `none` for
an absent value. -/
structure EntryMetaM where
  title : String
  published : String
  hidden : Option Bool
  sticky : Option Bool
deriving DecidableEq

/-- Source `EntryBase` (base.types.ts): slug, rendered html, metadata. -/
structure EntryM where
  slug : String
  html : String
  meta : EntryMetaM
deriving DecidableEq

/-- Model of JavaScript `a.localeCompare(b)` as used by `compareEntries`
on ISO-8601 date strings and slugs: sign of the lexicographic comparison
(the sign is all the caller inspects). -/
def localeCompareM (a b : String) : Int :=
  if a < b then -1 else if b < a then 1 else 0

/-- Source `compareEntries(a, b)` from base.utils.ts:
sticky entries first, then newest `published` first, then slug descending
(the source binds `dateCompare` to the published comparison before testing
it; the binding is inlined here).  `a.meta.sticky !== b.meta.sticky` is
strict JavaScript inequality, under which `undefined` differs from
`false`; the ternary `a.meta.sticky ? -1 : 1` tests truthiness, i.e.
whether the value is exactly `true` (`some true`). -/
def compareEntries (a b : EntryM) : Int :=
  if a.meta.sticky ≠ b.meta.sticky then
    (if a.meta.sticky = some true then -1 else 1)
  else if localeCompareM b.meta.published a.meta.published ≠ 0 then
    localeCompareM b.meta.published a.meta.published
  else localeCompareM b.slug a.slug

/-! ### YAML front-matter values and parseYaml (jekyll-markdown-parser.ts) -/

/-- Values a YAML document can parse to (the shape js-yaml `load` returns:
`undefined` for an empty document is represented by `Except.ok none` of the
load outcome, a thrown `YAMLException` by `Except.error`). -/
inductive YamlValue where
  | ynull
  | ybool (b : Bool)
  | ynum (n : Int)
  | ystr (s : String)
  | yseq (items : List YamlValue)
  | ymap (entries : List (String × YamlValue))

/-- JavaScript truthiness of a parsed YAML value (`null`, `false`, `0` and
the empty string are falsy; objects and arrays are always truthy). -/
def yamlTruthy : YamlValue → Bool
  | .ynull => false
  | .ybool b => b
  | .ynum n => n != 0
  | .ystr s => s != ""
  | .yseq _ => true
  | .ymap _ => true

/-- Is the parsed value a YAML mapping? -/
def yamlIsMapping : YamlValue → Bool
  | .ymap _ => true
  | _ => false

/-- Source `parseYaml(yaml)` from jekyll-markdown-parser.ts, expressed over the
outcome of the external js-yaml `load` call (`.error` = `load` threw,
`.ok none` = `load` returned `undefined`, `.ok (some v)` = parsed value):
a load exception propagates; then `if (!parsed) throw ...` rejects exactly
the falsy results; any truthy value is returned without further checks. -/
def parseYaml (loadResult : Except String (Option YamlValue)) :
    Except String YamlValue :=
  match loadResult with
  | .error e => .error e
  | .ok none => .error "YAML frontmatter is required but was empty or invalid"
  | .ok (some v) =>
    if yamlTruthy v then .ok v
    else .error "YAML frontmatter is required but was empty or invalid"

/-! ### Front-matter separation (jekyll-markdown-parser.ts `separate`) -/

/-- Space or tab, the only characters `[ \t]*` in the separator regex
accepts between the dashes and the line end. -/
def isSepWs (c : Char) : Bool := c == ' ' || c == '\t'

/-- Length of the leading space/tab run and the remainder after it. -/
def wsRun : List Char → Nat × List Char
  | [] => (0, [])
  | c :: rest =>
    if isSepWs c then
      match wsRun rest with
      | (n, r) => (n + 1, r)
    else (0, c :: rest)

/-- Match of the separator regex `^---[ \t]*$\r?\n` at the current
position (the `^` anchoring is handled by the caller): three dashes, a
space/tab run, then a newline (`$` matches before `\n` and before the
`\r` of `\r\n`; a final line without a newline never matches because the
regex consumes `\r?\n`).  Returns the matched length. -/
def sepMatchAt : List Char → Option Nat
  | '-' :: '-' :: '-' :: rest =>
    match wsRun rest with
    | (k, '\n' :: _) => some (4 + k)
    | (k, '\r' :: '\n' :: _) => some (5 + k)
    | _ => none
  | _ => none

/-- First match of the separator regex with the JavaScript `m` flag:
positions are candidates when they start the string or follow a line
terminator (`\n` or `\r`).  Returns (index, matched length). -/
def findSep : Bool → List Char → Option (Nat × Nat)
  | _, [] => none
  | atStart, c :: rest =>
    if atStart then
      match sepMatchAt (c :: rest) with
      | some len => some (0, len)
      | none => (findSep (c == '\n' || c == '\r') rest).map (fun p => (p.1 + 1, p.2))
    else (findSep (c == '\n' || c == '\r') rest).map (fun p => (p.1 + 1, p.2))

/-- Source `separate(jekyllMarkdown)` from jekyll-markdown-parser.ts: find the
first separator match, then the second one in the remainder; the text
between them is the YAML block and the text after the second is the
Markdown body; if either is missing the whole input is Markdown.
Returns (markdown, yaml). -/
def separate (s : List Char) : List Char × List Char :=
  match findSep true s with
  | none => (s, [])
  | some (i1, l1) =>
    match findSep true (s.drop (i1 + l1)) with
    | none => (s, [])
    | some (i2, l2) =>
      ((s.drop (i1 + l1)).drop (i2 + l2), (s.drop (i1 + l1)).take i2)

/-- A line (no terminator included) that the separator regex accepts:
exactly three dashes followed only by spaces and tabs. -/
def isDashLine : List Char → Bool
  | '-' :: '-' :: '-' :: rest => rest.all isSepWs
  | _ => false

/-- Concatenation of newline-terminated lines. -/
def joinLines (ls : List (List Char)) : List Char :=
  (ls.map (fun l => l ++ ['\n'])).flatten

/-! ### Heading IDs: github-slugger and the gfm-heading-id fork -/

/-- Occurrence map of github-slugger: association list from slug to its
collision counter. -/
abbrev SlugState := List (List Char × Nat)

/-- Lookup in the occurrence map (`own.call(occurrences, k)` plus read). -/
def occGet (st : SlugState) (k : List Char) : Option Nat :=
  match st.find? (fun p => p.1 == k) with
  | some p => some p.2
  | none => none

/-- Write to the occurrence map. -/
def occSet (st : SlugState) (k : List Char) (v : Nat) : SlugState :=
  match st with
  | [] => [(k, v)]
  | p :: rest => if p.1 == k then (k, v) :: rest else p :: occSet rest k v

/-- Modelled from the spec: the core slug function of the external
github-slugger package, "lowercase, punctuation-stripped, space-to-hyphen
identifiers"; non-ASCII characters (diacritics) are preserved. -/
def slugCore (value : List Char) : List Char :=
  (value.map Char.toLower).filterMap (fun c =>
    if c = ' ' then some '-'
    else if c.isAlphanum || c == '-' || c == '_' || decide (128 ≤ c.toNat) then some c
    else none)

/-- Modelled from the spec: the collision loop of github-slugger's
`slug`: while the candidate is occupied, bump the counter stored under the
*original* base slug and retry with `base-n`; finally mark the winning
slug occupied.  The counter is keyed by the exact requested base string.
Fuel bounds the loop; `st.length + 1` iterations always reach a free
slug because each iteration proposes a fresh candidate. -/
def slugLoop (original : List Char) : Nat → SlugState → List Char →
    List Char × SlugState
  | 0, st, result => (result, occSet st result 0)
  | fuel + 1, st, result =>
    match occGet st result with
    | some _ =>
      let n := (occGet st original).getD 0 + 1
      slugLoop original fuel (occSet st original n)
        (original ++ '-' :: (Nat.repr n).toList)
    | none => (result, occSet st result 0)

/-- Source `slugger.slug(value)`: slug the value, resolve collisions. -/
def sluggerSlug (st : SlugState) (value : List Char) : List Char × SlugState :=
  let base := slugCore value
  slugLoop base (st.length + 1) st base

/-- Source `HeadingData` from gfm-heading-id.ts. -/
structure HeadingDataM where
  level : Nat
  text : List Char
  raw : List Char
  id : List Char
deriving DecidableEq

/-- JavaScript `\s` white space (ASCII part), used by `String.trim` and
by the `\s` class in the anchor regexes. -/
def isJsWs (c : Char) : Bool :=
  c == ' ' || c == '\t' || c == '\n' || c == '\x0d' ||
  c == Char.ofNat 11 || c == Char.ofNat 12

/-- JavaScript `String.prototype.trim` (ASCII white space). -/
def trimL (s : List Char) : List Char :=
  ((s.dropWhile isJsWs).reverse.dropWhile isJsWs).reverse

/-- Modelled from the spec: ATX heading recognition of the external
`marked` renderer, reduced to what the heading pipeline consumes: a line
whose leading `#` run has length 1–6 followed by a space (or nothing)
is a heading of that level with the trimmed remainder as inline text.
Setext headings, fenced code blocks and trailing `#` runs are outside
the behaviour the claims exercise and are not modelled. -/
def atxHeading (line : List Char) : Option (Nat × List Char) :=
  let hashes := line.takeWhile (fun c => c == '#')
  let n := hashes.length
  if 1 ≤ n ∧ n ≤ 6 then
    match line.drop n with
    | [] => some (n, [])
    | c :: rest => if c = ' ' then some (n, trimL (c :: rest)) else none
  else none

/-- The heading renderer of gfm-heading-id.ts applied over a document's
heading lines: `text` is the rendered inline HTML (modelled as the
HTML-escaped source text, which is what marked produces for plain text),
`raw` decodes the limited entity set and strips tags, `id` comes from the
per-document slugger. -/
def collectHeadings : SlugState → List (List Char) → List HeadingDataM
  | _, [] => []
  | st, line :: rest =>
    match atxHeading line with
    | none => collectHeadings st rest
    | some (lvl, txt) =>
      let text := escapeHtml txt
      let raw := trimL (stripHtmlTags (decodeHtmlEntities text))
      match sluggerSlug st raw with
      | (id, st2) =>
        { level := lvl, text := text, raw := raw, id := id } ::
          collectHeadings st2 rest

/-- One `marked.parse` pass with the gfm-heading-id extension installed:
the `preprocess` hook calls `resetHeadings()` first, so the heading list
and the slugger state always start empty, whatever state `prior` was
left behind by an earlier document. -/
def parseHeadingsFrom (prior : SlugState) (doc : List Char) : List HeadingDataM :=
  let _ := prior
  collectHeadings [] (splitOnChar '\n' doc)

/-- Heading collection for one document (fresh state). -/
def parseHeadings (doc : List Char) : List HeadingDataM :=
  collectHeadings [] (splitOnChar '\n' doc)

/-! ### TOC generation (jekyll-markdown-parser.ts) -/

/-- The reserved TOC marker token `[[toc]]`. -/
def TOC_MARKER : List Char := "[[toc]]".toList

/-- One bullet of the generated TOC: level-3 headings are indented two
spaces; the bullet links the heading's `raw` text to `#id`. -/
def tocBullet (h : HeadingDataM) : List Char :=
  (if h.level == 3 then ("  ".toList) else []) ++
    ("* [".toList) ++ h.raw ++ ("](#".toList) ++ h.id ++ [')']

/-- The TOC list generated from a heading list: only levels 2 and 3,
empty when no heading qualifies. -/
def tocFromHeadings (hs : List HeadingDataM) : List Char :=
  let relevant := hs.filter (fun h => decide (2 ≤ h.level) && decide (h.level ≤ 3))
  if relevant.isEmpty then []
  else List.intercalate ['\n'] (relevant.map tocBullet)

/-- Source `generateToc(markdown)` from jekyll-markdown-parser.ts: split at the
marker and parse only the content after the first occurrence (the
source computes that suffix as `parts.slice(1).join(TOC_MARKER)`); the
parse runs with reset heading state. -/
def generateToc (markdown : List Char) : List Char :=
  match afterFirstL TOC_MARKER markdown with
  | none => []
  | some contentAfterMarker => tocFromHeadings (parseHeadings contentAfterMarker)

/-- The TOC-substitution stage of `compileMarkdown` (jekyll markdown
parser, lines 299–303): when the body contains the marker, generate the
TOC and substitute it via `markdown.replace(TOC_MARKER, toc)` — a
plain-string `replace`, so only the first occurrence is replaced.  The
subsequent marked render and URL rewrites operate on this result. -/
def compileMarkdownToc (markdown : List Char) : List Char :=
  if occursIn TOC_MARKER markdown then
    replaceFirstL TOC_MARKER (generateToc markdown) markdown
  else markdown

/-! ### URL rewriting (jekyll-markdown-parser.ts) -/

/-- The image base-URL placeholder token. -/
def MARKDOWN_BASE_URL_PLACEHOLDER : List Char := "%%MARKDOWN_BASE_URL%%".toList

/-- A `\w` word character: ASCII letter, digit or underscore. -/
def isWordChar (c : Char) : Bool := c.isAlphanum || c == '_'

/-- The regex `^\w+:`: a nonempty word-character run followed by a colon. -/
def protocolTest (url : List Char) : Bool :=
  match url.takeWhile isWordChar, url.drop (url.takeWhile isWordChar).length with
  | _ :: _, ':' :: _ => true
  | _, _ => false

/-- Source `isAbsoluteUrl(url)` from jekyll-markdown-parser.ts. -/
def isAbsoluteUrl (url : List Char) : Bool :=
  protocolTest url ||
  ("//".toList).isPrefixOf url ||
  ("/".toList).isPrefixOf url ||
  ("assets/".toList).isPrefixOf url ||
  MARKDOWN_BASE_URL_PLACEHOLDER.isPrefixOf url

/-- Normalize a slash-separated absolute path: empty and `.` segments are
dropped and `..` pops the previous segment (or vanishes at the root). -/
def normalizeSegs : List (List Char) → List (List Char) → List (List Char)
  | acc, [] => acc.reverse
  | acc, seg :: rest =>
    if seg = [] || seg = ['.'] then normalizeSegs acc rest
    else if seg = ['.', '.'] then normalizeSegs acc.tail rest
    else normalizeSegs (seg :: acc) rest

/-- Modelled from the spec: `path.posix.resolve(base, p)` of the external
node `path` module, for an absolute `base` and a relative `p` (the only
way `transformRelativeLinks` calls it): join with a slash and normalize
with POSIX semantics. -/
def posixResolve (base p : List Char) : List Char :=
  '/' :: List.intercalate ['/'] (normalizeSegs [] (splitOnChar '/' (base ++ '/' :: p)))

/-- The replacement logic `transformRelativeLinks` applies to each
captured href (jekyll-markdown-parser.ts lines 251–264): absolute hrefs
pass through; otherwise the href is split at `'#'` and destructured as
`[pathPart, hash]` (so `hash` is the part between the first and second
`'#'`, and later parts are dropped), the path part is resolved against
`linkBasePath + '/'` (or the base path itself when empty), and the hash
is reattached when the href contained `'#'`. -/
def transformHref (linkBasePath href : List Char) : List Char :=
  if isAbsoluteUrl href then href
  else if occursIn ['#'] href then
    (if (splitOnChar '#' href).headD [] ≠ [] then
      posixResolve (linkBasePath ++ ['/']) ((splitOnChar '#' href).headD [])
    else linkBasePath) ++ '#' :: ((splitOnChar '#' href).drop 1).headD []
  else if href ≠ [] then posixResolve (linkBasePath ++ ['/']) href
  else linkBasePath

/-! ### Anchor-link validator (link-validator.ts) -/

/-- Source `isExternalUrl(url)` from link-validator.ts. -/
def isExternalUrl (url : List Char) : Bool :=
  ("http://".toList).isPrefixOf url || ("https://".toList).isPrefixOf url ||
  ("//".toList).isPrefixOf url || ("mailto:".toList).isPrefixOf url ||
  ("tel:".toList).isPrefixOf url

/-- Split at the first occurrence of `pat`: (text before, text after). -/
def splitAtFirstL (pat : List Char) : List Char → Option (List Char × List Char)
  | [] => if pat.isPrefixOf ([] : List Char) then some ([], []) else none
  | c :: rest =>
    if pat.isPrefixOf (c :: rest) then some ([], (c :: rest).drop pat.length)
    else (splitAtFirstL pat rest).map (fun p => (c :: p.1, p.2))

/-- Does a captured href body satisfy `[^"']*#[^"']+`, i.e. contain a
`#` with at least one character after it? -/
def linkBodyOk (body : List Char) : Bool := body.dropLast.contains '#'

/-- Attempt to match `\shref=(["'])([^"']*#[^"']+)\1` at this position
(after `<a` and the `[^>]*` gap); returns the captured body and the rest
of the input after the closing quote. -/
def hrefAt : List Char → Option (List Char × List Char)
  | c :: rest =>
    if isJsWs c then
      if ("href=".toList).isPrefixOf rest then
        match rest.drop 5 with
        | q :: rest2 =>
          if q == '"' || q == apos then
            let body := rest2.takeWhile (fun d => !(d == '"' || d == apos))
            match rest2.drop body.length with
            | q2 :: rest3 =>
              if q2 == q && linkBodyOk body then some (body, rest3) else none
            | [] => none
          else none
        | [] => none
      else none
    else none
  | [] => none

/-- Backtracking for the greedy `[^>]*` gap: try the longest gap first
and shrink until `\shref=...` matches. -/
def tryULen : Nat → List Char → Option (List Char × List Char)
  | ulen, rest =>
    match hrefAt (rest.drop ulen) with
    | some r => some r
    | none =>
      match ulen with
      | 0 => none
      | k + 1 => tryULen k rest

/-- Match of `ANCHOR_LINK_REGEX` = `<a[^>]*\shref=(["'])([^"']*#[^"']+)\1`
at the current position: capture (2) and the remainder after the match. -/
def anchorMatchAt (s : List Char) : Option (List Char × List Char) :=
  match s with
  | '<' :: 'a' :: rest => tryULen (rest.takeWhile (fun c => c ≠ '>')).length rest
  | _ => none

/-- Source `extractAnchorLinks(html)`: all captures of the global regex in
document order, each scan resuming after the previous match. -/
def extractLinksF : Nat → List Char → List (List Char)
  | 0, _ => []
  | _ + 1, [] => []
  | fuel + 1, c :: rest =>
    match anchorMatchAt (c :: rest) with
    | some (link, rem) => link :: extractLinksF fuel rem
    | none => extractLinksF fuel rest

/-- Source `extractAnchorLinks(html)` from link-validator.ts. -/
def extractAnchorLinks (html : List Char) : List (List Char) :=
  extractLinksF html.length html

/-- Hex digit value for percent decoding. -/
def hexVal (c : Char) : Option Nat :=
  if '0' ≤ c ∧ c ≤ '9' then some (c.toNat - 48)
  else if 'A' ≤ c ∧ c ≤ 'F' then some (c.toNat - 55)
  else if 'a' ≤ c ∧ c ≤ 'f' then some (c.toNat - 87)
  else none

/-- One `%XX` byte; `none` when the escape is malformed. -/
def pctByte : List Char → Option (Nat × List Char)
  | '%' :: h1 :: h2 :: rest =>
    match hexVal h1, hexVal h2 with
    | some a, some b => some (a * 16 + b, rest)
    | _, _ => none
  | _ => none

/-- Modelled from the spec: ECMAScript `decodeURIComponent`.  Characters
other than `%` pass through; a `%` must start a `%XX` escape; escaped
bytes are decoded as strict UTF-8 (continuation bytes must themselves be
percent-escaped; overlong encodings, surrogates and out-of-range code
points are rejected).  `none` models the thrown `URIError`. -/
def decodeURIF : Nat → List Char → Option (List Char)
  | 0, _ => none
  | _ + 1, [] => some []
  | fuel + 1, c :: rest =>
    if c = '%' then
      match pctByte (c :: rest) with
      | none => none
      | some (b, rest2) =>
        if b < 128 then (decodeURIF fuel rest2).map (fun d => Char.ofNat b :: d)
        else if 194 ≤ b ∧ b ≤ 223 then
          match pctByte rest2 with
          | some (b2, rest3) =>
            if 128 ≤ b2 ∧ b2 ≤ 191 then
              (decodeURIF fuel rest3).map
                (fun d => Char.ofNat ((b - 192) * 64 + (b2 - 128)) :: d)
            else none
          | none => none
        else if 224 ≤ b ∧ b ≤ 239 then
          match pctByte rest2 with
          | some (b2, rest3) =>
            match pctByte rest3 with
            | some (b3, rest4) =>
              if 128 ≤ b2 ∧ b2 ≤ 191 ∧ 128 ≤ b3 ∧ b3 ≤ 191 then
                let cp := (b - 224) * 4096 + (b2 - 128) * 64 + (b3 - 128)
                if 2048 ≤ cp ∧ (cp < 55296 ∨ 57343 < cp) then
                  (decodeURIF fuel rest4).map (fun d => Char.ofNat cp :: d)
                else none
              else none
            | none => none
          | none => none
        else if 240 ≤ b ∧ b ≤ 244 then
          match pctByte rest2 with
          | some (b2, rest3) =>
            match pctByte rest3 with
            | some (b3, rest4) =>
              match pctByte rest4 with
              | some (b4, rest5) =>
                if 128 ≤ b2 ∧ b2 ≤ 191 ∧ 128 ≤ b3 ∧ b3 ≤ 191 ∧
                    128 ≤ b4 ∧ b4 ≤ 191 then
                  let cp := (b - 240) * 262144 + (b2 - 128) * 4096 +
                    (b3 - 128) * 64 + (b4 - 128)
                  if 65536 ≤ cp ∧ cp ≤ 1114111 then
                    (decodeURIF fuel rest5).map (fun d => Char.ofNat cp :: d)
                  else none
                else none
              | none => none
            | none => none
          | none => none
        else none
    else (decodeURIF fuel rest).map (fun d => c :: d)

/-- Source `decodeURIComponent` over a fragment. -/
def decodeURIComponentM (s : List Char) : Option (List Char) :=
  decodeURIF (s.length + 1) s

/-- Source `AnchorLink` from link-validator.ts. -/
structure AnchorLinkM where
  fromPath : List Char
  toPath : List Char
  anchor : List Char
  fullLink : List Char
deriving DecidableEq

/-- The body of `registerLinks` over the extracted links: external links
and links without `#` are skipped; the fragment is URL-decoded (a
`URIError` aborts, modelled as `.error`); an empty path part means a
same-document link. -/
def processLinks (fromPath : List Char) : List (List Char) →
    Except Unit (List AnchorLinkM)
  | [] => .ok []
  | fullLink :: rest =>
    if isExternalUrl fullLink then processLinks fromPath rest
    else
      let pathPart := fullLink.takeWhile (fun c => c ≠ '#')
      if pathPart.length = fullLink.length then processLinks fromPath rest
      else
        match decodeURIComponentM (fullLink.drop (pathPart.length + 1)) with
        | none => .error ()
        | some anchor =>
          match processLinks fromPath rest with
          | .error e => .error e
          | .ok links =>
            .ok ({ fromPath := fromPath,
                   toPath := if pathPart = [] then fromPath else pathPart,
                   anchor := anchor, fullLink := fullLink } :: links)

/-- Source `registerLinks(fromPath, html)` from link-validator.ts, returning the
links it appends to the registry, or `.error` when a malformed fragment
makes `decodeURIComponent` throw. -/
def registerLinksM (fromPath html : List Char) : Except Unit (List AnchorLinkM) :=
  processLinks fromPath (extractAnchorLinks html)

/-! ### List utilities (list.utils.ts) -/

/-- Removal of `/<img[^>]*>/g` matches: `<img`, a run of non-`>`
characters, then `>`; an unterminated tag does not match. -/
def stripImgF : Nat → List Char → List Char
  | 0, s => s
  | _ + 1, [] => []
  | fuel + 1, c :: rest =>
    if ("<img".toList).isPrefixOf (c :: rest) then
      match ((c :: rest).drop 4).dropWhile (fun d => d ≠ '>') with
      | '>' :: rem => stripImgF fuel rem
      | _ => c :: stripImgF fuel rest
    else c :: stripImgF fuel rest

/-- Source `html.replace(/<img[^>]*>/g, '')`. -/
def stripImgTags (html : List Char) : List Char :=
  stripImgF html.length html

/-- Match of `/<p[^>]*>([\s\S]*?)<\/p>/` at this position: the full
matched text `m[0]` and the remainder after it.  `[\s\S]*?` is lazy, so
the block closes at the first `</p>`. -/
def pMatchAt (s : List Char) : Option (List Char × List Char) :=
  match s with
  | '<' :: 'p' :: rest =>
    let attrs := rest.takeWhile (fun d => d ≠ '>')
    match rest.drop attrs.length with
    | '>' :: rest2 =>
      match splitAtFirstL ("</p>".toList) rest2 with
      | some (inner, rem) =>
        some ('<' :: 'p' :: (attrs ++ '>' :: (inner ++ ("</p>".toList))), rem)
      | none => none
    | _ => none
  | _ => none

/-- All matches of the global paragraph regex, in document order. -/
def pMatchesF : Nat → List Char → List (List Char)
  | 0, _ => []
  | _ + 1, [] => []
  | fuel + 1, c :: rest =>
    match pMatchAt (c :: rest) with
    | some (m, rem) => m :: pMatchesF fuel rem
    | none => pMatchesF fuel rest

/-- Source `html.match(/<p[^>]*>([\s\S]*?)<\/p>/mg)` (the `m` flag is inert:
the pattern has no anchors). -/
def pMatches (html : List Char) : List (List Char) :=
  pMatchesF html.length html

/-- Match of `/<a\s.*?>(.*?)<\/a>/` at this position: the captured inner
text and the remainder.  `.` does not match line terminators, so both
lazy parts must stay within the current line. -/
def aMatchAt (s : List Char) : Option (List Char × List Char) :=
  match s with
  | '<' :: 'a' :: c :: rest =>
    if isJsWs c then
      let run := rest.takeWhile (fun d => !(d == '\n' || d == '\x0d') && d ≠ '>')
      match rest.drop run.length with
      | '>' :: rest2 =>
        let run2 := rest2.takeWhile (fun d => !(d == '\n' || d == '\x0d'))
        match splitAtFirstL ("</a>".toList) run2 with
        | some (inner, remInRun) => some (inner, remInRun ++ rest2.drop run2.length)
        | none => none
      | _ => none
    else none
  | _ => none

/-- Source `paragraph.replace(/<a\s.*?>(.*?)<\/a>/g, '$1')`: every anchor match
is replaced by its captured inner text. -/
def unwrapAF : Nat → List Char → List Char
  | 0, s => s
  | _ + 1, [] => []
  | fuel + 1, c :: rest =>
    match aMatchAt (c :: rest) with
    | some (inner, rem) => inner ++ unwrapAF fuel rem
    | none => c :: unwrapAF fuel rest

/-- Anchor unwrapping over a whole paragraph. -/
def unwrapAnchors (s : List Char) : List Char :=
  unwrapAF s.length s

/-- The big-paragraph predicate: the match is nonempty (JavaScript
truthiness of `m`) and its tag-stripped text is longer than 100. -/
def bigParagraph (m : List Char) : Bool :=
  !m.isEmpty && decide (100 < (stripHtmlTags m).length)

/-- Source `extractFirstBigParagraph(html)` from list.utils.ts. -/
def extractFirstBigParagraph (html : List Char) : List Char :=
  if html = [] then []
  else if pMatches (stripImgTags html) = [] then []
  else
    unwrapAnchors
      (match (pMatches (stripImgTags html)).find? bigParagraph with
       | some m => m
       | none => (pMatches (stripImgTags html)).headD [])

end SiteBuild

namespace SiteBuild

/-! ## Generic lemmas about the replace models -/

theorem replaceAllF_fuel (pat rep : List Char) :
    ∀ (f g : Nat) (s : List Char), s.length ≤ f → s.length ≤ g →
      replaceAllF pat rep f s = replaceAllF pat rep g s := by
  intro f
  induction f with
  | zero =>
    intro g s hf _
    have hs : s = [] := List.length_eq_zero.mp (Nat.le_zero.mp hf)
    subst hs
    cases g <;> rfl
  | succ f ih =>
    intro g s hf hg
    cases s with
    | nil => cases g <;> rfl
    | cons c rest =>
      cases g with
      | zero => exact absurd hg (by simp)
      | succ g =>
        show replaceAllF pat rep (f + 1) (c :: rest) =
          replaceAllF pat rep (g + 1) (c :: rest)
        simp only [List.length_cons] at hf hg
        simp only [replaceAllF]
        cases h : (pat.isPrefixOf (c :: rest) && !pat.isEmpty) with
        | true =>
          simp only [if_true]
          have hpat : 1 ≤ pat.length := by
            cases hp : pat with
            | nil => rw [hp] at h; simp at h
            | cons _ _ => simp
          have hlen : ((c :: rest).drop pat.length).length ≤ f := by
            simp only [List.length_drop, List.length_cons]
            omega
          have hlen2 : ((c :: rest).drop pat.length).length ≤ g := by
            simp only [List.length_drop, List.length_cons]
            omega
          rw [ih _ _ hlen hlen2]
        | false =>
          simp only [Bool.false_eq_true, if_false]
          have h1 : rest.length ≤ f := by omega
          have h2 : rest.length ≤ g := by omega
          rw [ih _ _ h1 h2]

theorem replaceAllL_nil (pat rep : List Char) : replaceAllL pat rep [] = [] := rfl

theorem replaceAllL_cons_neg {pat : List Char} (rep : List Char) {c : Char}
    {s : List Char} (h : pat.isPrefixOf (c :: s) = false) :
    replaceAllL pat rep (c :: s) = c :: replaceAllL pat rep s := by
  show replaceAllF pat rep (s.length + 1) (c :: s) = _
  simp only [replaceAllF, h, Bool.false_and, Bool.false_eq_true, if_false]
  rfl

theorem replaceAllL_cons_pos {pat : List Char} (rep : List Char) {c : Char}
    {s : List Char} (hpat : pat ≠ []) (h : pat.isPrefixOf (c :: s) = true) :
    replaceAllL pat rep (c :: s) = rep ++ replaceAllL pat rep ((c :: s).drop pat.length) := by
  show replaceAllF pat rep (s.length + 1) (c :: s) = _
  have hne : pat.isEmpty = false := by
    cases pat with
    | nil => exact absurd rfl hpat
    | cons _ _ => rfl
  simp only [replaceAllF, h, hne, Bool.not_false, Bool.and_true, if_true]
  congr 1
  apply replaceAllF_fuel
  · have hp1 : 1 ≤ pat.length := by
      cases pat with
      | nil => exact absurd rfl hpat
      | cons _ _ => simp
    simp only [List.length_drop, List.length_cons]
    omega
  · exact Nat.le_refl _

theorem replaceAllL_append_self {pat : List Char} (rep : List Char)
    (v : List Char) (hpat : pat ≠ []) :
    replaceAllL pat rep (pat ++ v) = rep ++ replaceAllL pat rep v := by
  cases pat with
  | nil => exact absurd rfl hpat
  | cons p ps =>
    have hpre : (p :: ps).isPrefixOf (p :: (ps ++ v)) = true := by
      apply List.isPrefixOf_iff_prefix.mpr
      exact List.cons_prefix_cons.mpr ⟨rfl, List.prefix_append ps v⟩
    have hdrop : (p :: (ps ++ v)).drop (p :: ps).length = v := by
      have h := List.drop_left (p :: ps) v
      simp only [List.cons_append] at h
      exact h
    show replaceAllL (p :: ps) rep (p :: (ps ++ v)) = _
    rw [replaceAllL_cons_pos rep (by simp) hpre, hdrop]

theorem replaceAllL_append_left {a : Char} {p rep u v : List Char}
    (hu : ∀ x ∈ u, x ≠ a) :
    replaceAllL (a :: p) rep (u ++ v) = u ++ replaceAllL (a :: p) rep v := by
  induction u with
  | nil => rfl
  | cons c u ih =>
    have hne : (a :: p).isPrefixOf (c :: (u ++ v)) = false := by
      cases hh : (a :: p).isPrefixOf (c :: (u ++ v)) with
      | false => rfl
      | true =>
        have h2 := List.isPrefixOf_iff_prefix.mp hh
        rcases List.cons_prefix_cons.mp h2 with ⟨hac, _⟩
        exact absurd hac.symm (hu c (List.mem_cons_self c u))
    show replaceAllL (a :: p) rep (c :: (u ++ v)) = _
    rw [replaceAllL_cons_neg rep hne, ih (fun x hx => hu x (List.mem_cons_of_mem c hx))]
    rfl

theorem occursIn_cons (pat : List Char) (c : Char) (rest : List Char) :
    occursIn pat (c :: rest) = (pat.isPrefixOf (c :: rest) || occursIn pat rest) := rfl

theorem replaceAllL_of_not_occurs {pat rep s : List Char}
    (h : occursIn pat s = false) : replaceAllL pat rep s = s := by
  induction s with
  | nil => rfl
  | cons c rest ih =>
    rw [occursIn_cons, Bool.or_eq_false_iff] at h
    rw [replaceAllL_cons_neg rep h.1, ih h.2]

theorem replaceAll_single (a : Char) (rep t : List Char) :
    replaceAllL [a] rep t = (t.map (fun c => if c = a then rep else [c])).flatten := by
  induction t with
  | nil => rfl
  | cons c t ih =>
    by_cases hca : c = a
    · subst hca
      have hpre : [c].isPrefixOf (c :: t) = true := by
        apply List.isPrefixOf_iff_prefix.mpr
        exact List.cons_prefix_cons.mpr ⟨rfl, List.nil_prefix⟩
      rw [replaceAllL_cons_pos rep (by simp) hpre]
      have hdrop : (c :: t).drop ([c] : List Char).length = t := rfl
      rw [hdrop, ih, List.map_cons, List.flatten_cons, if_pos rfl]
    · have hne : [a].isPrefixOf (c :: t) = false := by
        cases hh : [a].isPrefixOf (c :: t) with
        | false => rfl
        | true =>
          have h2 := List.isPrefixOf_iff_prefix.mp hh
          rcases List.cons_prefix_cons.mp h2 with ⟨hac, _⟩
          exact absurd hac.symm hca
      rw [replaceAllL_cons_neg rep hne, ih, List.map_cons, List.flatten_cons, if_neg hca]
      rfl

theorem blocks_nil (f : Char → List Char) : blocks f [] = [] := rfl

theorem blocks_cons (f : Char → List Char) (c : Char) (t : List Char) :
    blocks f (c :: t) = f c ++ blocks f t := by
  simp [blocks]

theorem blocks_congr {f g : Char → List Char} (h : ∀ c, f c = g c)
    (t : List Char) : blocks f t = blocks g t := by
  induction t with
  | nil => rfl
  | cons c t ih => rw [blocks_cons, blocks_cons, h c, ih]

theorem blocks_id (t : List Char) : blocks (fun c => [c]) t = t := by
  induction t with
  | nil => rfl
  | cons c t ih => rw [blocks_cons, ih]; rfl

theorem flatten_map_flatten (g : Char → List Char) (L : List (List Char)) :
    (L.flatten.map g).flatten = (L.map (fun l => (l.map g).flatten)).flatten := by
  induction L with
  | nil => rfl
  | cons l L ih =>
    simp only [List.flatten_cons, List.map_append, List.flatten_append, List.map_cons, ih]

theorem replaceAll_single_blocks (a : Char) (rep : List Char)
    (f : Char → List Char) (t : List Char) :
    replaceAllL [a] rep (blocks f t) =
      blocks (fun c => ((f c).map (fun d => if d = a then rep else [d])).flatten) t := by
  rw [replaceAll_single, blocks, flatten_map_flatten, blocks, List.map_map]
  rfl

theorem not_prefix_of_get_ne {w u : List Char} (z : List Char) (i : Nat)
    (a b : Char) (ha : w.get? i = some a) (hb : u.get? i = some b)
    (hab : a ≠ b) : ¬ w <+: u ++ z := by
  rintro ⟨tl, htl⟩
  have hiw : i < w.length := List.get?_eq_some.mp ha |>.1
  have hiu : i < u.length := List.get?_eq_some.mp hb |>.1
  have h1 : (w ++ tl).get? i = some a := by rw [List.get?_append hiw]; exact ha
  have h2 : (u ++ z).get? i = some b := by rw [List.get?_append hiu]; exact hb
  rw [htl, h2] at h1
  exact hab (Option.some.inj h1).symm

/-- If every character of `w` differs from the ampersand and every block of
`f` is either the single character it came from or starts with an ampersand,
then `w` can only occur as a prefix of a block string by being a prefix of the
underlying text. -/
theorem prefix_of_blocks {f : Char → List Char}
    (hblocks : ∀ c, f c = [c] ∨ (f c).head? = some '&') :
    ∀ (rest : List Char) (w : List Char), (∀ x ∈ w, x ≠ '&') →
      w <+: blocks f rest → w <+: rest := by
  intro rest
  induction rest with
  | nil =>
    intro w _ hw
    rw [blocks_nil] at hw
    rw [List.prefix_nil.mp hw]
  | cons r rest ih =>
    intro w hwa hw
    cases w with
    | nil => exact List.nil_prefix
    | cons x w =>
      rw [blocks_cons] at hw
      cases hblocks r with
      | inl hid =>
        rw [hid] at hw
        simp only [List.cons_append, List.nil_append] at hw
        rcases List.cons_prefix_cons.mp hw with ⟨hxr, hw2⟩
        exact List.cons_prefix_cons.mpr
          ⟨hxr, ih w (fun y hy => hwa y (List.mem_cons_of_mem x hy)) hw2⟩
      | inr hamp =>
        cases hfr : f r with
        | nil => rw [hfr] at hamp; simp at hamp
        | cons d ds =>
          rw [hfr] at hamp hw
          simp only [List.head?_cons, Option.some.injEq] at hamp
          simp only [List.cons_append] at hw
          rcases List.cons_prefix_cons.mp hw with ⟨hxd, _⟩
          exact absurd (hxd.trans hamp) (hwa x (List.mem_cons_self x w))

/-- Master lemma for the decode passes: replacing the pattern `'&' :: w`
inside a block string `blocks f t` rewrites exactly the blocks that equal
the pattern, provided every other block either mismatches the pattern
within its own text or is the bare ampersand block, and (in the latter
case) the pattern does not occur literally in `t`. -/
theorem replaceAll_blocks (w rep : List Char) (f fnext : Char → List Char)
    (hw : ∀ x ∈ w, x ≠ '&')
    (hblocks : ∀ c, f c = [c] ∨ ((f c).head? = some '&' ∧ ∀ x ∈ (f c).tail, x ≠ '&'))
    (hdiff : ∀ c, (f c).head? = some '&' → f c = ['&'] ∨ f c = '&' :: w ∨
      ∃ i a b, w.get? i = some a ∧ (f c).tail.get? i = some b ∧ a ≠ b)
    (hbareEq : ∀ c, f c = ['&'] → c = '&')
    (hrep : ∀ c, fnext c = if f c = '&' :: w then rep else f c) :
    ∀ t : List Char, ((∃ c, f c = ['&']) → occursIn ('&' :: w) t = false) →
      replaceAllL ('&' :: w) rep (blocks f t) = blocks fnext t := by
  have hb2 : ∀ c, f c = [c] ∨ (f c).head? = some '&' := by
    intro c
    cases hblocks c with
    | inl h => exact Or.inl h
    | inr h => exact Or.inr h.1
  intro t
  induction t with
  | nil => intro _; rfl
  | cons r rest ih =>
    intro ht
    have htrest : (∃ c, f c = ['&']) → occursIn ('&' :: w) rest = false := by
      intro hex
      have h := ht hex
      rw [occursIn_cons, Bool.or_eq_false_iff] at h
      exact h.2
    rw [blocks_cons, blocks_cons]
    by_cases hhit : f r = '&' :: w
    · rw [hhit, replaceAllL_append_self rep _ (by simp), ih htrest]
      have : fnext r = rep := by rw [hrep r, if_pos hhit]
      rw [this]
    · have hfnext : fnext r = f r := by rw [hrep r, if_neg hhit]
      rw [hfnext]
      by_cases hbare : f r = ['&']
      · -- bare ampersand block: the pattern cannot continue into the
        -- following blocks, because that would be a literal occurrence in t
        have hr : r = '&' := hbareEq r hbare
        have hocc := ht ⟨r, hbare⟩
        rw [occursIn_cons, Bool.or_eq_false_iff] at hocc
        have hnp : ('&' :: w).isPrefixOf ('&' :: blocks f rest) = false := by
          cases hh : ('&' :: w).isPrefixOf ('&' :: blocks f rest) with
          | false => rfl
          | true =>
            have h2 := List.isPrefixOf_iff_prefix.mp hh
            rcases List.cons_prefix_cons.mp h2 with ⟨_, hw2⟩
            have hw3 : w <+: rest := prefix_of_blocks hb2 rest w hw hw2
            have : ('&' :: w).isPrefixOf (r :: rest) = true := by
              apply List.isPrefixOf_iff_prefix.mpr
              exact List.cons_prefix_cons.mpr ⟨hr.symm, hw3⟩
            rw [this] at hocc
            exact absurd hocc.1 (by simp)
        rw [hbare]
        simp only [List.cons_append, List.nil_append]
        rw [replaceAllL_cons_neg rep hnp, ih htrest]
      · cases hblocks r with
        | inl hid =>
          -- singleton block of an ordinary or already-decoded character;
          -- it is not an ampersand, so the pattern cannot start here
          have hrne : r ≠ '&' := by
            intro hr
            exact hbare (by rw [hid, hr])
          rw [hid]
          simp only [List.cons_append, List.nil_append]
          have hnp : ('&' :: w).isPrefixOf (r :: blocks f rest) = false := by
            cases hh : ('&' :: w).isPrefixOf (r :: blocks f rest) with
            | false => rfl
            | true =>
              have h2 := List.isPrefixOf_iff_prefix.mp hh
              rcases List.cons_prefix_cons.mp h2 with ⟨hr, _⟩
              exact absurd hr.symm hrne
          rw [replaceAllL_cons_neg rep hnp, ih htrest]
        | inr hamp =>
          -- entity block starting with an ampersand but different from the
          -- pattern: it mismatches the pattern inside its own text
          cases hfr : f r with
          | nil => rw [hfr] at hamp; simp at hamp
          | cons d ds =>
            rw [hfr] at hamp
            simp only [List.head?_cons, Option.some.injEq, List.tail_cons] at hamp
            rcases hamp with ⟨hd, hds⟩
            subst hd
            rcases hdiff r (by rw [hfr]; rfl) with h1 | h2 | h3
            · exact absurd h1 hbare
            · exact absurd h2 hhit
            · rcases h3 with ⟨i, a, b, hwi, hti, hab⟩
              rw [hfr, List.tail_cons] at hti
              have hnp : ('&' :: w).isPrefixOf ('&' :: (ds ++ blocks f rest)) = false := by
                cases hh : ('&' :: w).isPrefixOf ('&' :: (ds ++ blocks f rest)) with
                | false => rfl
                | true =>
                  have hpre2 := List.isPrefixOf_iff_prefix.mp hh
                  rcases List.cons_prefix_cons.mp hpre2 with ⟨_, hw2⟩
                  exact absurd hw2 (not_prefix_of_get_ne (blocks f rest) i a b hwi hti hab)
              simp only [List.cons_append]
              rw [replaceAllL_cons_neg rep hnp,
                replaceAllL_append_left (fun x hx => hds x hx), ih htrest]

/-! ## The escape pass as a block map -/

theorem replaceAll_single_b (a : Char) (rep t : List Char) :
    replaceAllL [a] rep t = blocks (fun c => if c = a then rep else [c]) t :=
  replaceAll_single a rep t

/-- Case analysis on a character: either it is one of the five characters
that `escapeHtml` rewrites, or all block maps keep it unchanged. -/
theorem block_values (c : Char) :
    (c = '&' ∨ c = '"' ∨ c = apos ∨ c = '<' ∨ c = '>') ∨
      (escBlock c = [c] ∧ decBlock1 c = [c] ∧ decBlock2 c = [c] ∧
        decBlock3 c = [c] ∧ decBlock4 c = [c] ∧ decBlock5 c = [c]) := by
  by_cases h1 : c = '&'
  · exact Or.inl (Or.inl h1)
  by_cases h2 : c = '"'
  · exact Or.inl (Or.inr (Or.inl h2))
  by_cases h3 : c = apos
  · exact Or.inl (Or.inr (Or.inr (Or.inl h3)))
  by_cases h4 : c = '<'
  · exact Or.inl (Or.inr (Or.inr (Or.inr (Or.inl h4))))
  by_cases h5 : c = '>'
  · exact Or.inl (Or.inr (Or.inr (Or.inr (Or.inr h5))))
  refine Or.inr ?_
  refine ⟨?_, ?_, ?_, ?_, ?_, ?_⟩ <;>
    simp [escBlock, decBlock1, decBlock2, decBlock3, decBlock4, decBlock5,
      h1, h2, h3, h4, h5]

theorem escapeHtml_blocks (t : List Char) : escapeHtml t = blocks escBlock t := by
  show replaceAllL ['>'] ("&gt;".toList)
    (replaceAllL ['<'] ("&lt;".toList)
      (replaceAllL [apos] ("&#39;".toList)
        (replaceAllL ['"'] ("&quot;".toList)
          (replaceAllL ['&'] ("&amp;".toList) t)))) = blocks escBlock t
  rw [replaceAll_single_b '&', replaceAll_single_blocks '"',
    replaceAll_single_blocks apos, replaceAll_single_blocks '<',
    replaceAll_single_blocks '>']
  refine blocks_congr (fun c => ?_) t
  rcases block_values c with (h | h | h | h | h) | hgen
  · subst h; decide
  · subst h; decide
  · subst h; decide
  · subst h; decide
  · subst h; decide
  · have h1 : c ≠ '&' := by
      intro h; rw [h] at hgen; revert hgen; decide
    have h2 : c ≠ '"' := by
      intro h; rw [h] at hgen; revert hgen; decide
    have h3 : c ≠ apos := by
      intro h; rw [h] at hgen; revert hgen; decide
    have h4 : c ≠ '<' := by
      intro h; rw [h] at hgen; revert hgen; decide
    have h5 : c ≠ '>' := by
      intro h; rw [h] at hgen; revert hgen; decide
    simp only [if_neg h1, if_neg h2, if_neg h3, if_neg h4, if_neg h5,
      List.map_cons, List.map_nil, List.flatten_cons, List.flatten_nil,
      List.append_nil]
    exact hgen.1.symm

/-! ## The decode passes over the escaped block string -/

theorem decode_stage1 (t : List Char) :
    replaceAllL ("&amp;".toList) ['&'] (blocks escBlock t) = blocks decBlock1 t := by
  have hpat : ("&amp;".toList : List Char) = '&' :: "amp;".toList := rfl
  rw [hpat]
  refine replaceAll_blocks ("amp;".toList) ['&'] escBlock decBlock1
    (by decide) ?_ ?_ ?_ ?_ t ?_
  · intro c
    rcases block_values c with (h | h | h | h | h) | hgen
    · subst h; decide
    · subst h; decide
    · subst h; decide
    · subst h; decide
    · subst h; decide
    · exact Or.inl hgen.1
  · intro c hc
    rcases block_values c with (h | h | h | h | h) | hgen
    · subst h; exact Or.inr (Or.inl (by decide))
    · subst h; exact Or.inr (Or.inr ⟨0, 'a', 'q', by decide, by decide, by decide⟩)
    · subst h; exact Or.inr (Or.inr ⟨0, 'a', '#', by decide, by decide, by decide⟩)
    · subst h; exact Or.inr (Or.inr ⟨0, 'a', 'l', by decide, by decide, by decide⟩)
    · subst h; exact Or.inr (Or.inr ⟨0, 'a', 'g', by decide, by decide, by decide⟩)
    · rw [hgen.1] at hc
      simp only [List.head?_cons, Option.some.injEq] at hc
      subst hc
      exact Or.inl hgen.1
  · intro c hc
    rcases block_values c with (h | h | h | h | h) | hgen
    · exact h
    · subst h; exact absurd hc (by decide)
    · subst h; exact absurd hc (by decide)
    · subst h; exact absurd hc (by decide)
    · subst h; exact absurd hc (by decide)
    · rw [hgen.1] at hc
      simpa using hc
  · intro c
    rcases block_values c with (h | h | h | h | h) | hgen
    · subst h; decide
    · subst h; decide
    · subst h; decide
    · subst h; decide
    · subst h; decide
    · rw [hgen.2.1, hgen.1, if_neg (by simp)]
  · rintro ⟨c, hc⟩
    exfalso
    rcases block_values c with (h | h | h | h | h) | hgen
    · subst h; exact absurd hc (by decide)
    · subst h; exact absurd hc (by decide)
    · subst h; exact absurd hc (by decide)
    · subst h; exact absurd hc (by decide)
    · subst h; exact absurd hc (by decide)
    · rw [hgen.1] at hc
      have hc2 : c = '&' := by simpa using hc
      subst hc2
      have h3 : escBlock '&' = ("&amp;".toList) := by decide
      rw [h3] at hgen
      exact absurd hgen.1 (by decide)

theorem decode_stage2 (t : List Char)
    (hocc : occursIn ("&lt;".toList) t = false) :
    replaceAllL ("&lt;".toList) ['<'] (blocks decBlock1 t) = blocks decBlock2 t := by
  have hpat : ("&lt;".toList : List Char) = '&' :: "lt;".toList := rfl
  rw [hpat]
  refine replaceAll_blocks ("lt;".toList) ['<'] decBlock1 decBlock2
    (by decide) ?_ ?_ ?_ ?_ t ?_
  · intro c
    rcases block_values c with (h | h | h | h | h) | hgen
    · subst h; decide
    · subst h; decide
    · subst h; decide
    · subst h; decide
    · subst h; decide
    · exact Or.inl hgen.2.1
  · intro c hc
    rcases block_values c with (h | h | h | h | h) | hgen
    · subst h; exact Or.inl (by decide)
    · subst h; exact Or.inr (Or.inr ⟨0, 'l', 'q', by decide, by decide, by decide⟩)
    · subst h; exact Or.inr (Or.inr ⟨0, 'l', '#', by decide, by decide, by decide⟩)
    · subst h; exact Or.inr (Or.inl (by decide))
    · subst h; exact Or.inr (Or.inr ⟨0, 'l', 'g', by decide, by decide, by decide⟩)
    · rw [hgen.2.1] at hc
      simp only [List.head?_cons, Option.some.injEq] at hc
      subst hc
      exact Or.inl hgen.2.1
  · intro c hc
    rcases block_values c with (h | h | h | h | h) | hgen
    · exact h
    · subst h; exact absurd hc (by decide)
    · subst h; exact absurd hc (by decide)
    · subst h; exact absurd hc (by decide)
    · subst h; exact absurd hc (by decide)
    · rw [hgen.2.1] at hc
      simpa using hc
  · intro c
    rcases block_values c with (h | h | h | h | h) | hgen
    · subst h; decide
    · subst h; decide
    · subst h; decide
    · subst h; decide
    · subst h; decide
    · rw [hgen.2.2.1, hgen.2.1, if_neg (by simp)]
  · intro _
    exact hocc

theorem decode_stage3 (t : List Char)
    (hocc : occursIn ("&gt;".toList) t = false) :
    replaceAllL ("&gt;".toList) ['>'] (blocks decBlock2 t) = blocks decBlock3 t := by
  have hpat : ("&gt;".toList : List Char) = '&' :: "gt;".toList := rfl
  rw [hpat]
  refine replaceAll_blocks ("gt;".toList) ['>'] decBlock2 decBlock3
    (by decide) ?_ ?_ ?_ ?_ t ?_
  · intro c
    rcases block_values c with (h | h | h | h | h) | hgen
    · subst h; decide
    · subst h; decide
    · subst h; decide
    · subst h; decide
    · subst h; decide
    · exact Or.inl hgen.2.2.1
  · intro c hc
    rcases block_values c with (h | h | h | h | h) | hgen
    · subst h; exact Or.inl (by decide)
    · subst h; exact Or.inr (Or.inr ⟨0, 'g', 'q', by decide, by decide, by decide⟩)
    · subst h; exact Or.inr (Or.inr ⟨0, 'g', '#', by decide, by decide, by decide⟩)
    · subst h
      rw [show decBlock2 '<' = ['<'] from by decide] at hc
      simp at hc
    · subst h; exact Or.inr (Or.inl (by decide))
    · rw [hgen.2.2.1] at hc
      simp only [List.head?_cons, Option.some.injEq] at hc
      subst hc
      exact Or.inl hgen.2.2.1
  · intro c hc
    rcases block_values c with (h | h | h | h | h) | hgen
    · exact h
    · subst h; exact absurd hc (by decide)
    · subst h; exact absurd hc (by decide)
    · subst h; exact absurd hc (by decide)
    · subst h; exact absurd hc (by decide)
    · rw [hgen.2.2.1] at hc
      simpa using hc
  · intro c
    rcases block_values c with (h | h | h | h | h) | hgen
    · subst h; decide
    · subst h; decide
    · subst h; decide
    · subst h; decide
    · subst h; decide
    · rw [hgen.2.2.2.1, hgen.2.2.1, if_neg (by simp)]
  · intro _
    exact hocc

theorem decode_stage4 (t : List Char)
    (hocc : occursIn ("&quot;".toList) t = false) :
    replaceAllL ("&quot;".toList) ['"'] (blocks decBlock3 t) = blocks decBlock4 t := by
  have hpat : ("&quot;".toList : List Char) = '&' :: "quot;".toList := rfl
  rw [hpat]
  refine replaceAll_blocks ("quot;".toList) ['"'] decBlock3 decBlock4
    (by decide) ?_ ?_ ?_ ?_ t ?_
  · intro c
    rcases block_values c with (h | h | h | h | h) | hgen
    · subst h; decide
    · subst h; decide
    · subst h; decide
    · subst h; decide
    · subst h; decide
    · exact Or.inl hgen.2.2.2.1
  · intro c hc
    rcases block_values c with (h | h | h | h | h) | hgen
    · subst h; exact Or.inl (by decide)
    · subst h; exact Or.inr (Or.inl (by decide))
    · subst h; exact Or.inr (Or.inr ⟨0, 'q', '#', by decide, by decide, by decide⟩)
    · subst h
      rw [show decBlock3 '<' = ['<'] from by decide] at hc
      simp at hc
    · subst h
      rw [show decBlock3 '>' = ['>'] from by decide] at hc
      simp at hc
    · rw [hgen.2.2.2.1] at hc
      simp only [List.head?_cons, Option.some.injEq] at hc
      subst hc
      exact Or.inl hgen.2.2.2.1
  · intro c hc
    rcases block_values c with (h | h | h | h | h) | hgen
    · exact h
    · subst h; exact absurd hc (by decide)
    · subst h; exact absurd hc (by decide)
    · subst h; exact absurd hc (by decide)
    · subst h; exact absurd hc (by decide)
    · rw [hgen.2.2.2.1] at hc
      simpa using hc
  · intro c
    rcases block_values c with (h | h | h | h | h) | hgen
    · subst h; decide
    · subst h; decide
    · subst h; decide
    · subst h; decide
    · subst h; decide
    · rw [hgen.2.2.2.2.1, hgen.2.2.2.1, if_neg (by simp)]
  · intro _
    exact hocc

theorem decode_stage5 (t : List Char)
    (hocc : occursIn ("&#39;".toList) t = false) :
    replaceAllL ("&#39;".toList) [apos] (blocks decBlock4 t) = blocks decBlock5 t := by
  have hpat : ("&#39;".toList : List Char) = '&' :: "#39;".toList := rfl
  rw [hpat]
  refine replaceAll_blocks ("#39;".toList) [apos] decBlock4 decBlock5
    (by decide) ?_ ?_ ?_ ?_ t ?_
  · intro c
    rcases block_values c with (h | h | h | h | h) | hgen
    · subst h; decide
    · subst h; decide
    · subst h; decide
    · subst h; decide
    · subst h; decide
    · exact Or.inl hgen.2.2.2.2.1
  · intro c hc
    rcases block_values c with (h | h | h | h | h) | hgen
    · subst h; exact Or.inl (by decide)
    · subst h
      rw [show decBlock4 '"' = ['"'] from by decide] at hc
      simp at hc
    · subst h; exact Or.inr (Or.inl (by decide))
    · subst h
      rw [show decBlock4 '<' = ['<'] from by decide] at hc
      simp at hc
    · subst h
      rw [show decBlock4 '>' = ['>'] from by decide] at hc
      simp at hc
    · rw [hgen.2.2.2.2.1] at hc
      simp only [List.head?_cons, Option.some.injEq] at hc
      subst hc
      exact Or.inl hgen.2.2.2.2.1
  · intro c hc
    rcases block_values c with (h | h | h | h | h) | hgen
    · exact h
    · subst h; exact absurd hc (by decide)
    · subst h; exact absurd hc (by decide)
    · subst h; exact absurd hc (by decide)
    · subst h; exact absurd hc (by decide)
    · rw [hgen.2.2.2.2.1] at hc
      simpa using hc
  · intro c
    rcases block_values c with (h | h | h | h | h) | hgen
    · subst h; decide
    · subst h; decide
    · subst h; decide
    · subst h; decide
    · subst h; decide
    · rw [hgen.2.2.2.2.2, hgen.2.2.2.2.1, if_neg (by simp)]
  · intro _
    exact hocc

theorem decBlock5_id (c : Char) : decBlock5 c = [c] := by
  rcases block_values c with (h | h | h | h | h) | hgen
  · subst h; decide
  · subst h; decide
  · subst h; decide
  · subst h; decide
  · subst h; decide
  · exact hgen.2.2.2.2.2

/-- Full characterization of the escape/decode round trip on texts that do
not already contain one of the six decodable entity spellings. -/
theorem decode_escape_of_no_entities (t : List Char)
    (hlt : occursIn ("&lt;".toList) t = false)
    (hgt : occursIn ("&gt;".toList) t = false)
    (hquot : occursIn ("&quot;".toList) t = false)
    (h39 : occursIn ("&#39;".toList) t = false)
    (hx27 : occursIn ("&#x27;".toList) t = false)
    (hx2F : occursIn ("&#x2F;".toList) t = false) :
    decodeHtmlEntities (escapeHtml t) = t := by
  rw [escapeHtml_blocks]
  show replaceAllL ("&#x2F;".toList) ['/']
    (replaceAllL ("&#x27;".toList) [apos]
      (replaceAllL ("&#39;".toList) [apos]
        (replaceAllL ("&quot;".toList) ['"']
          (replaceAllL ("&gt;".toList) ['>']
            (replaceAllL ("&lt;".toList) ['<']
              (replaceAllL ("&amp;".toList) ['&'] (blocks escBlock t))))))) = t
  rw [decode_stage1 t, decode_stage2 t hlt, decode_stage3 t hgt,
    decode_stage4 t hquot, decode_stage5 t h39,
    blocks_congr decBlock5_id t, blocks_id t,
    replaceAllL_of_not_occurs hx27, replaceAllL_of_not_occurs hx2F]

/-! ## compareEntries: order properties -/

theorem localeCompareM_neg_iff (a b : String) : localeCompareM a b < 0 ↔ a < b := by
  rw [localeCompareM]
  by_cases h : a < b
  · rw [if_pos h]
    constructor
    · intro _
      exact h
    · intro _
      decide
  · rw [if_neg h]
    by_cases h2 : b < a
    · rw [if_pos h2]
      constructor
      · intro hc
        exact absurd hc (by decide)
      · intro hc
        exact absurd hc h
    · rw [if_neg h2]
      constructor
      · intro hc
        exact absurd hc (by decide)
      · intro hc
        exact absurd hc h

theorem localeCompareM_zero_iff (a b : String) : localeCompareM a b = 0 ↔ a = b := by
  rw [localeCompareM]
  by_cases h : a < b
  · rw [if_pos h]
    constructor
    · intro hc
      exact absurd hc (by decide)
    · intro hc
      rw [hc] at h
      exact absurd h (lt_irrefl _)
  · rw [if_neg h]
    by_cases h2 : b < a
    · rw [if_pos h2]
      constructor
      · intro hc
        exact absurd hc (by decide)
      · intro hc
        rw [hc] at h2
        exact absurd h2 (lt_irrefl _)
    · rw [if_neg h2]
      constructor
      · intro _
        exact le_antisymm (not_lt.mp h2) (not_lt.mp h)
      · intro _
        rfl

theorem localeCompareM_antisymm (a b : String) :
    localeCompareM a b = -localeCompareM b a := by
  rw [localeCompareM, localeCompareM]
  rcases lt_trichotomy a b with h | h | h
  · rw [if_pos h, if_neg (lt_asymm h), if_pos h]
  · subst h
    rw [if_neg (lt_irrefl a), if_neg (lt_irrefl a)]
    decide
  · rw [if_neg (lt_asymm h), if_pos h, if_pos h]
    decide

theorem compareEntries_neg_iff (a b : EntryM) : compareEntries a b < 0 ↔
    (a.meta.sticky ≠ b.meta.sticky ∧ a.meta.sticky = some true) ∨
    (a.meta.sticky = b.meta.sticky ∧ b.meta.published < a.meta.published) ∨
    (a.meta.sticky = b.meta.sticky ∧ a.meta.published = b.meta.published ∧
      b.slug < a.slug) := by
  rw [compareEntries]
  by_cases hs : a.meta.sticky = b.meta.sticky
  · rw [if_neg (show ¬ a.meta.sticky ≠ b.meta.sticky from fun h => h hs)]
    by_cases hd : localeCompareM b.meta.published a.meta.published = 0
    · rw [if_neg (show ¬ localeCompareM b.meta.published a.meta.published ≠ 0
        from fun h => h hd), localeCompareM_neg_iff]
      have hpub : b.meta.published = a.meta.published :=
        (localeCompareM_zero_iff _ _).mp hd
      constructor
      · intro h
        exact Or.inr (Or.inr ⟨hs, hpub.symm, h⟩)
      · rintro (⟨h1, _⟩ | ⟨_, h2⟩ | ⟨_, _, h3⟩)
        · exact absurd hs h1
        · rw [hpub] at h2
          exact absurd h2 (lt_irrefl _)
        · exact h3
    · rw [if_pos (show localeCompareM b.meta.published a.meta.published ≠ 0
        from hd), localeCompareM_neg_iff]
      constructor
      · intro h
        exact Or.inr (Or.inl ⟨hs, h⟩)
      · rintro (⟨h1, _⟩ | ⟨_, h2⟩ | ⟨_, h2, _⟩)
        · exact absurd hs h1
        · exact h2
        · exact absurd ((localeCompareM_zero_iff _ _).mpr h2.symm) hd
  · rw [if_pos (show a.meta.sticky ≠ b.meta.sticky from hs)]
    by_cases hat : a.meta.sticky = some true
    · rw [if_pos hat]
      constructor
      · intro _
        exact Or.inl ⟨hs, hat⟩
      · intro _
        decide
    · rw [if_neg hat]
      constructor
      · intro h
        exact absurd h (by decide)
      · rintro (⟨_, h2⟩ | ⟨h1, _⟩ | ⟨h1, _, _⟩)
        · exact absurd h2 hat
        · exact absurd h1 hs
        · exact absurd h1 hs

theorem compareEntries_zero_iff (a b : EntryM) : compareEntries a b = 0 ↔
    a.meta.sticky = b.meta.sticky ∧ a.meta.published = b.meta.published ∧
      a.slug = b.slug := by
  rw [compareEntries]
  by_cases hs : a.meta.sticky = b.meta.sticky
  · rw [if_neg (show ¬ a.meta.sticky ≠ b.meta.sticky from fun h => h hs)]
    by_cases hd : localeCompareM b.meta.published a.meta.published = 0
    · rw [if_neg (show ¬ localeCompareM b.meta.published a.meta.published ≠ 0
        from fun h => h hd), localeCompareM_zero_iff]
      have hpub : b.meta.published = a.meta.published :=
        (localeCompareM_zero_iff _ _).mp hd
      constructor
      · intro h
        exact ⟨hs, hpub.symm, h.symm⟩
      · rintro ⟨_, _, h3⟩
        exact h3.symm
    · rw [if_pos (show localeCompareM b.meta.published a.meta.published ≠ 0
        from hd)]
      constructor
      · intro h
        exact absurd h hd
      · rintro ⟨_, h2, _⟩
        exact absurd ((localeCompareM_zero_iff _ _).mpr h2.symm) hd
  · rw [if_pos (show a.meta.sticky ≠ b.meta.sticky from hs)]
    constructor
    · intro h
      by_cases hat : a.meta.sticky = some true
      · rw [if_pos hat] at h
        cases h
      · rw [if_neg hat] at h
        cases h
    · rintro ⟨h1, _, _⟩
      exact absurd h1 hs

theorem compareEntries_antisymm (a b : EntryM)
    (h1 : a.meta.sticky = none → b.meta.sticky ≠ some false)
    (h2 : a.meta.sticky = some false → b.meta.sticky ≠ none) :
    compareEntries a b = -compareEntries b a := by
  rw [compareEntries, compareEntries]
  by_cases hs : a.meta.sticky = b.meta.sticky
  · rw [if_neg (show ¬ a.meta.sticky ≠ b.meta.sticky from fun h => h hs),
      if_neg (show ¬ b.meta.sticky ≠ a.meta.sticky from fun h => h hs.symm)]
    by_cases hd : localeCompareM b.meta.published a.meta.published = 0
    · have hd2 : localeCompareM a.meta.published b.meta.published = 0 := by
        rw [localeCompareM_antisymm, hd]
        rfl
      rw [if_neg (show ¬ localeCompareM b.meta.published a.meta.published ≠ 0
        from fun h => h hd),
        if_neg (show ¬ localeCompareM a.meta.published b.meta.published ≠ 0
        from fun h => h hd2)]
      exact localeCompareM_antisymm _ _
    · have hd2 : localeCompareM a.meta.published b.meta.published ≠ 0 := by
        rw [localeCompareM_antisymm]
        omega
      rw [if_pos (show localeCompareM b.meta.published a.meta.published ≠ 0
        from hd),
        if_pos (show localeCompareM a.meta.published b.meta.published ≠ 0
        from hd2)]
      exact localeCompareM_antisymm _ _
  · rw [if_pos (show a.meta.sticky ≠ b.meta.sticky from hs),
      if_pos (show b.meta.sticky ≠ a.meta.sticky from fun h => hs h.symm)]
    by_cases hat : a.meta.sticky = some true
    · have hbt : ¬ b.meta.sticky = some true := fun hb => hs (hat.trans hb.symm)
      rw [if_pos hat, if_neg hbt]
    · have hbt : b.meta.sticky = some true := by
        cases hsa : a.meta.sticky with
        | none =>
          cases hsb : b.meta.sticky with
          | none => exact absurd (hsa.trans hsb.symm) hs
          | some bb =>
            cases bb with
            | false => exact absurd hsb (h1 hsa)
            | true => rfl
        | some ab =>
          cases ab with
          | true => exact absurd hsa hat
          | false =>
            cases hsb : b.meta.sticky with
            | none => exact absurd hsb (h2 hsa)
            | some bb =>
              cases bb with
              | false => exact absurd (hsa.trans hsb.symm) hs
              | true => rfl
      rw [if_neg hat, if_pos hbt]
      decide

theorem compareEntries_trans {a b c : EntryM} (h1 : compareEntries a b < 0)
    (h2 : compareEntries b c < 0) : compareEntries a c < 0 := by
  rw [compareEntries_neg_iff] at h1 h2 ⊢
  rcases h1 with ⟨hne1, hat1⟩ | ⟨hs1, hp1⟩ | ⟨hs1, hp1, hl1⟩
  · rcases h2 with ⟨hne2, hat2⟩ | ⟨hs2, hp2⟩ | ⟨hs2, hp2, hl2⟩
    · exact absurd (hat1.trans hat2.symm) hne1
    · exact Or.inl ⟨fun h => hne1 (h.trans hs2.symm), hat1⟩
    · exact Or.inl ⟨fun h => hne1 (h.trans hs2.symm), hat1⟩
  · rcases h2 with ⟨hne2, hat2⟩ | ⟨hs2, hp2⟩ | ⟨hs2, hp2, hl2⟩
    · exact Or.inl ⟨fun h => hne2 (hs1.symm.trans h), hs1.trans hat2⟩
    · exact Or.inr (Or.inl ⟨hs1.trans hs2, lt_trans hp2 hp1⟩)
    · refine Or.inr (Or.inl ⟨hs1.trans hs2, ?_⟩)
      rw [← hp2]
      exact hp1
  · rcases h2 with ⟨hne2, hat2⟩ | ⟨hs2, hp2⟩ | ⟨hs2, hp2, hl2⟩
    · exact Or.inl ⟨fun h => hne2 (hs1.symm.trans h), hs1.trans hat2⟩
    · refine Or.inr (Or.inl ⟨hs1.trans hs2, ?_⟩)
      rw [hp1]
      exact hp2
    · exact Or.inr (Or.inr ⟨hs1.trans hs2, hp1.trans hp2, lt_trans hl2 hl1⟩)

/-! ## Front-matter separation lemmas -/

theorem sepMatchAt_newline (w : List Char) :
    sepMatchAt ('-' :: '-' :: '-' :: '\n' :: w) = some 4 := rfl

theorem sepMatchAt_ne0 {c : Char} (r : List Char) (h : c ≠ '-') :
    sepMatchAt (c :: r) = none := by
  rw [sepMatchAt.eq_def]
  split
  · rename_i heq
    injection heq with h1 _
    exact absurd h1 h
  · rfl

theorem sepMatchAt_ne1 {c : Char} (r : List Char) (h : c ≠ '-') :
    sepMatchAt ('-' :: c :: r) = none := by
  rw [sepMatchAt.eq_def]
  split
  · rename_i heq
    injection heq with _ heq2
    injection heq2 with h1 _
    exact absurd h1 h
  · rfl

theorem sepMatchAt_ne2 {c : Char} (r : List Char) (h : c ≠ '-') :
    sepMatchAt ('-' :: '-' :: c :: r) = none := by
  rw [sepMatchAt.eq_def]
  split
  · rename_i heq
    injection heq with _ heq2
    injection heq2 with _ heq3
    injection heq3 with h1 _
    exact absurd h1 h
  · rfl

theorem wsRun_not_all (u : List Char) (v : List Char)
    (h : u.all isSepWs = false) :
    ∃ k d r, wsRun (u ++ v) = (k, d :: r) ∧ d ∈ u ∧ isSepWs d = false := by
  induction u with
  | nil => simp at h
  | cons c u ih =>
    rw [List.all_cons, Bool.and_eq_false_iff] at h
    by_cases hc : isSepWs c = true
    · have hu : u.all isSepWs = false := by
        cases h with
        | inl h => exact absurd hc (by rw [h]; decide)
        | inr h => exact h
      rcases ih hu with ⟨k, d, r, hwr, hd, hdws⟩
      refine ⟨k + 1, d, r, ?_, List.mem_cons_of_mem c hd, hdws⟩
      show wsRun (c :: (u ++ v)) = (k + 1, d :: r)
      rw [wsRun, if_pos hc, hwr]
    · have hc2 : isSepWs c = false := by
        cases hh : isSepWs c
        · rfl
        · exact absurd hh hc
      refine ⟨0, c, u ++ v, ?_, List.mem_cons_self c u, hc2⟩
      show wsRun (c :: (u ++ v)) = (0, c :: (u ++ v))
      rw [wsRun, if_neg (by rw [hc2]; exact Bool.false_ne_true)]

theorem sepMatchAt_not_dash (l : List Char) (w : List Char)
    (hnl : ∀ c ∈ l, c ≠ '\n' ∧ c ≠ '\r') (hnd : isDashLine l = false) :
    sepMatchAt (l ++ '\n' :: w) = none := by
  match l with
  | [] => exact sepMatchAt_ne0 w (by decide)
  | c1 :: l1 =>
    by_cases h1 : c1 = '-'
    · subst h1
      match l1 with
      | [] => exact sepMatchAt_ne1 w (by decide)
      | c2 :: l2 =>
        by_cases h2 : c2 = '-'
        · subst h2
          match l2 with
          | [] => exact sepMatchAt_ne2 w (by decide)
          | c3 :: l3 =>
            by_cases h3 : c3 = '-'
            · subst h3
              have hall : l3.all isSepWs = false := by
                rw [isDashLine] at hnd
                exact hnd
              rcases wsRun_not_all l3 ('\n' :: w) hall with ⟨k, d, r, hwr, hd, _⟩
              have hdn : d ≠ '\n' ∧ d ≠ '\r' := by
                apply hnl
                simp only [List.mem_cons]
                exact Or.inr (Or.inr (Or.inr hd))
              show sepMatchAt ('-' :: '-' :: '-' :: (l3 ++ '\n' :: w)) = none
              have heq : sepMatchAt ('-' :: '-' :: '-' :: (l3 ++ '\n' :: w)) =
                  (match wsRun (l3 ++ '\n' :: w) with
                   | (k, '\n' :: _) => some (4 + k)
                   | (k, '\r' :: '\n' :: _) => some (5 + k)
                   | _ => none) := rfl
              rw [heq, hwr]
              split
              · rename_i heq2
                injection heq2 with _ heq3
                injection heq3 with hdeq _
                exact absurd hdeq hdn.1
              · rename_i heq2
                injection heq2 with _ heq3
                injection heq3 with hdeq _
                exact absurd hdeq hdn.2
              · rfl
            · exact sepMatchAt_ne2 (l3 ++ '\n' :: w) h3
        · exact sepMatchAt_ne1 (l2 ++ '\n' :: w) h2
    · exact sepMatchAt_ne0 (l1 ++ '\n' :: w) h1

theorem findSep_start_match {s : List Char} {len : Nat}
    (h : sepMatchAt s = some len) : findSep true s = some (0, len) := by
  cases s with
  | nil => rw [show sepMatchAt ([] : List Char) = none from rfl] at h; cases h
  | cons c rest =>
    rw [findSep, if_pos rfl, h]

theorem findSep_skip_nonl (u : List Char) (w : List Char)
    (hnl : ∀ c ∈ u, c ≠ '\n' ∧ c ≠ '\r') :
    findSep false (u ++ '\n' :: w) =
      (findSep true w).map (fun p => (p.1 + (u.length + 1), p.2)) := by
  induction u with
  | nil =>
    show findSep false ('\n' :: w) = _
    rw [findSep, if_neg (Bool.false_ne_true)]
    have : (('\n' : Char) == '\n' || ('\n' : Char) == '\r') = true := by decide
    rw [this]
    cases hw : findSep true w with
    | none => rfl
    | some p => rfl
  | cons c u ih =>
    have hc := hnl c (List.mem_cons_self c u)
    show findSep false (c :: (u ++ '\n' :: w)) = _
    rw [findSep, if_neg (Bool.false_ne_true)]
    have hflag : ((c == '\n') || (c == '\r')) = false := by
      rw [Bool.or_eq_false_iff]
      constructor
      · exact beq_eq_false_iff_ne.mpr hc.1
      · exact beq_eq_false_iff_ne.mpr hc.2
    rw [hflag, ih (fun x hx => hnl x (List.mem_cons_of_mem c hx))]
    cases hw : findSep true w with
    | none => rfl
    | some p =>
      show some (p.1 + (u.length + 1) + 1, p.2) = some (p.1 + (u.length + 1 + 1), p.2)
      refine congrArg some (Prod.ext ?_ rfl)
      omega

theorem findSep_skip_line (l : List Char) (w : List Char)
    (hnl : ∀ c ∈ l, c ≠ '\n' ∧ c ≠ '\r') (hnd : isDashLine l = false) :
    findSep true (l ++ '\n' :: w) =
      (findSep true w).map (fun p => (p.1 + (l.length + 1), p.2)) := by
  cases l with
  | nil =>
    show findSep true ('\n' :: w) = _
    rw [findSep, if_pos rfl, sepMatchAt_ne0 w (by decide)]
    have : (('\n' : Char) == '\n' || ('\n' : Char) == '\r') = true := by decide
    rw [this]
    cases hw : findSep true w with
    | none => rfl
    | some p => rfl
  | cons c l1 =>
    have hc := hnl c (List.mem_cons_self c l1)
    show findSep true (c :: (l1 ++ '\n' :: w)) = _
    rw [findSep, if_pos rfl]
    rw [show (c :: (l1 ++ '\n' :: w)) = ((c :: l1) ++ '\n' :: w) from rfl,
      sepMatchAt_not_dash (c :: l1) w hnl hnd]
    have hflag : ((c == '\n') || (c == '\r')) = false := by
      rw [Bool.or_eq_false_iff]
      constructor
      · exact beq_eq_false_iff_ne.mpr hc.1
      · exact beq_eq_false_iff_ne.mpr hc.2
    rw [hflag, findSep_skip_nonl l1 w (fun x hx => hnl x (List.mem_cons_of_mem c hx))]
    cases hw : findSep true w with
    | none => rfl
    | some p =>
      show some (p.1 + (l1.length + 1) + 1, p.2) = some (p.1 + (l1.length + 1 + 1), p.2)
      refine congrArg some (Prod.ext ?_ rfl)
      omega

theorem findSep_yaml (ls : List (List Char)) (m : List Char)
    (h : ∀ l ∈ ls, (∀ c ∈ l, c ≠ '\n' ∧ c ≠ '\r') ∧ isDashLine l = false) :
    findSep true (joinLines ls ++ '-' :: '-' :: '-' :: '\n' :: m) =
      some ((joinLines ls).length, 4) := by
  induction ls with
  | nil =>
    show findSep true ('-' :: '-' :: '-' :: '\n' :: m) = some (0, 4)
    exact findSep_start_match (sepMatchAt_newline m)
  | cons l ls ih =>
    have hl := h l (List.mem_cons_self l ls)
    have hjoin : joinLines (l :: ls) = l ++ '\n' :: joinLines ls := by
      show ((l ++ ['\n']) :: ls.map (fun x => x ++ ['\n'])).flatten = _
      rw [List.flatten_cons, List.append_assoc]
      rfl
    rw [hjoin, List.append_assoc]
    rw [show ('\n' :: joinLines ls) ++ '-' :: '-' :: '-' :: '\n' :: m =
      '\n' :: (joinLines ls ++ '-' :: '-' :: '-' :: '\n' :: m) from rfl]
    rw [findSep_skip_line l _ hl.1 hl.2,
      ih (fun x hx => h x (List.mem_cons_of_mem l hx))]
    show some ((joinLines ls).length + (l.length + 1), 4) =
      some ((l ++ '\n' :: joinLines ls).length, 4)
    refine congrArg some (Prod.ext ?_ rfl)
    simp only [List.length_append, List.length_cons]
    omega

theorem separate_split (ls : List (List Char)) (m : List Char)
    (h : ∀ l ∈ ls, (∀ c ∈ l, c ≠ '\n' ∧ c ≠ '\r') ∧ isDashLine l = false) :
    separate ('-' :: '-' :: '-' :: '\n' ::
        (joinLines ls ++ '-' :: '-' :: '-' :: '\n' :: m)) =
      (m, joinLines ls) := by
  have h1 : findSep true ('-' :: '-' :: '-' :: '\n' ::
      (joinLines ls ++ '-' :: '-' :: '-' :: '\n' :: m)) = some (0, 4) :=
    findSep_start_match (sepMatchAt_newline _)
  have hdrop1 : ('-' :: '-' :: '-' :: '\n' ::
      (joinLines ls ++ '-' :: '-' :: '-' :: '\n' :: m)).drop (0 + 4) =
      joinLines ls ++ '-' :: '-' :: '-' :: '\n' :: m := rfl
  have h2 := findSep_yaml ls m h
  have htake : (joinLines ls ++ '-' :: '-' :: '-' :: '\n' :: m).take
      (joinLines ls).length = joinLines ls := List.take_left _ _
  have hdrop2 : (joinLines ls ++ '-' :: '-' :: '-' :: '\n' :: m).drop
      ((joinLines ls).length + 4) = m := by
    rw [← List.drop_drop]
    rw [List.drop_left]
    rfl
  simp only [separate, h1, hdrop1, h2, htake, hdrop2]

/-! ## TOC substitution lemmas -/

theorem occursIn_of_append (pat u v : List Char) (hpat : pat ≠ []) :
    occursIn pat (u ++ pat ++ v) = true := by
  induction u with
  | nil =>
    cases pat with
    | nil => exact absurd rfl hpat
    | cons p ps =>
      show occursIn (p :: ps) (p :: (ps ++ v)) = true
      rw [occursIn_cons]
      have : (p :: ps).isPrefixOf (p :: (ps ++ v)) = true := by
        apply List.isPrefixOf_iff_prefix.mpr
        exact List.cons_prefix_cons.mpr ⟨rfl, List.prefix_append ps v⟩
      rw [this]
      rfl
  | cons c u ih =>
    show occursIn pat (c :: (u ++ pat ++ v)) = true
    rw [occursIn_cons, ih, Bool.or_true]

theorem afterFirstL_leftmost (pat u v : List Char) (hpat : pat ≠ [])
    (hu : ∀ i, i < u.length → pat.isPrefixOf ((u ++ pat ++ v).drop i) = false) :
    afterFirstL pat (u ++ pat ++ v) = some v := by
  induction u with
  | nil =>
    cases pat with
    | nil => exact absurd rfl hpat
    | cons p ps =>
      show afterFirstL (p :: ps) (p :: (ps ++ v)) = some v
      have hpre : (p :: ps).isPrefixOf (p :: (ps ++ v)) = true := by
        apply List.isPrefixOf_iff_prefix.mpr
        exact List.cons_prefix_cons.mpr ⟨rfl, List.prefix_append ps v⟩
      rw [afterFirstL, if_pos hpre]
      have hdrop : (p :: (ps ++ v)).drop (p :: ps).length = v := by
        have h := List.drop_left (p :: ps) v
        simp only [List.cons_append] at h
        exact h
      rw [hdrop]
  | cons c u ih =>
    have h0 := hu 0 (by simp)
    rw [List.drop_zero] at h0
    simp only [List.cons_append] at h0
    show afterFirstL pat (c :: (u ++ pat ++ v)) = some v
    rw [afterFirstL, if_neg (by rw [h0]; exact Bool.false_ne_true)]
    apply ih
    intro i hi
    have := hu (i + 1) (by simp only [List.length_cons]; omega)
    simpa using this

theorem replaceFirstL_leftmost (pat rep u v : List Char) (hpat : pat ≠ [])
    (hu : ∀ i, i < u.length → pat.isPrefixOf ((u ++ pat ++ v).drop i) = false) :
    replaceFirstL pat rep (u ++ pat ++ v) = u ++ rep ++ v := by
  induction u with
  | nil =>
    cases pat with
    | nil => exact absurd rfl hpat
    | cons p ps =>
      show replaceFirstL (p :: ps) rep (p :: (ps ++ v)) = rep ++ v
      have hpre : (p :: ps).isPrefixOf (p :: (ps ++ v)) = true := by
        apply List.isPrefixOf_iff_prefix.mpr
        exact List.cons_prefix_cons.mpr ⟨rfl, List.prefix_append ps v⟩
      rw [replaceFirstL, if_pos hpre]
      have hdrop : (p :: (ps ++ v)).drop (p :: ps).length = v := by
        have h := List.drop_left (p :: ps) v
        simp only [List.cons_append] at h
        exact h
      rw [hdrop]
  | cons c u ih =>
    have h0 := hu 0 (by simp)
    rw [List.drop_zero] at h0
    simp only [List.cons_append] at h0
    show replaceFirstL pat rep (c :: (u ++ pat ++ v)) = c :: (u ++ rep ++ v)
    rw [replaceFirstL, if_neg (by rw [h0]; exact Bool.false_ne_true)]
    congr 1
    apply ih
    intro i hi
    have := hu (i + 1) (by simp only [List.length_cons]; omega)
    simpa using this

/-! ## splitOnChar lemmas for the href rewriting -/

theorem splitOnChar_no_sep (sep : Char) (u : List Char) (hu : sep ∉ u) :
    splitOnChar sep u = [u] := by
  induction u with
  | nil => rfl
  | cons c u ih =>
    rw [splitOnChar, if_neg (fun h => hu (by rw [← h]; exact List.mem_cons_self c u)),
      ih (fun h => hu (List.mem_cons_of_mem c h))]

theorem splitOnChar_append (sep : Char) (p rest : List Char) (hp : sep ∉ p) :
    splitOnChar sep (p ++ sep :: rest) = p :: splitOnChar sep rest := by
  induction p with
  | nil =>
    show splitOnChar sep (sep :: rest) = [] :: splitOnChar sep rest
    rw [splitOnChar, if_pos rfl]
  | cons c p ih =>
    show splitOnChar sep (c :: (p ++ sep :: rest)) = (c :: p) :: splitOnChar sep rest
    rw [splitOnChar, if_neg (fun h => hp (by rw [← h]; exact List.mem_cons_self c p)),
      ih (fun h => hp (List.mem_cons_of_mem c h))]

theorem occursIn_single_true (a : Char) (s : List Char) (h : a ∈ s) :
    occursIn [a] s = true := by
  induction s with
  | nil => cases h
  | cons c rest ih =>
    rw [occursIn_cons]
    rcases List.mem_cons.mp h with h1 | h2
    · have : ([a] : List Char).isPrefixOf (c :: rest) = true := by
        apply List.isPrefixOf_iff_prefix.mpr
        exact List.cons_prefix_cons.mpr ⟨h1, List.nil_prefix⟩
      rw [this]
      rfl
    · rw [ih h2, Bool.or_true]

theorem occursIn_single_false (a : Char) (s : List Char) (h : a ∉ s) :
    occursIn [a] s = false := by
  induction s with
  | nil => rfl
  | cons c rest ih =>
    rw [occursIn_cons]
    have h1 : ([a] : List Char).isPrefixOf (c :: rest) = false := by
      cases hh : ([a] : List Char).isPrefixOf (c :: rest) with
      | false => rfl
      | true =>
        have h2 := List.isPrefixOf_iff_prefix.mp hh
        rcases List.cons_prefix_cons.mp h2 with ⟨hac, _⟩
        exact absurd (by rw [hac]; exact List.mem_cons_self c rest : a ∈ c :: rest) h
    rw [h1, ih (fun hm => h (List.mem_cons_of_mem c hm))]
    rfl

/-! ## find? positional lemma for paragraph selection -/

theorem find?_first_of_split {α : Type} (p : α → Bool) (pre : List α) (x : α)
    (post : List α) (hpre : ∀ y ∈ pre, p y = false) (hx : p x = true) :
    (pre ++ x :: post).find? p = some x := by
  induction pre with
  | nil => simp [List.find?_cons, hx]
  | cons y pre ih =>
    rw [List.cons_append, List.find?_cons, hpre y (List.mem_cons_self y pre)]
    exact ih (fun z hz => hpre z (List.mem_cons_of_mem y hz))

/-! ## Claim theorems -/

/-- Claim C4: heading-ID collision counters are keyed by the exact
requested base slug and are not perturbed by heading text that merely
looks like a suffixed slug: `"# foo\n\n# foo\n\n# foo"` yields ids
`foo, foo-1, foo-2`; `"# foo 1\n\n# foo\n\n# foo"` yields
`foo-1, foo, foo-2`; and every parse starts from reset heading state, so
no collision state leaks between documents. -/
theorem C4_heading_ids :
    (parseHeadings ("# foo\n\n# foo\n\n# foo".toList)).map HeadingDataM.id =
      [("foo".toList), ("foo-1".toList), ("foo-2".toList)] ∧
    (parseHeadings ("# foo 1\n\n# foo\n\n# foo".toList)).map HeadingDataM.id =
      [("foo-1".toList), ("foo".toList), ("foo-2".toList)] ∧
    (∀ st1 st2 : SlugState, ∀ doc : List Char,
      parseHeadingsFrom st1 doc = parseHeadingsFrom st2 doc) ∧
    (∀ st : SlugState, ∀ doc : List Char,
      parseHeadingsFrom st doc = parseHeadings doc) :=
  ⟨by decide, by decide, fun _ _ _ => rfl, fun _ _ => rfl⟩

/-- Claim C5 counterexample: a YAML block parsing to the truthy
non-mapping value `42` is *not* rejected — `parseYaml` returns it, even
though it is not a mapping, so "fails ... if the block ... parses to a
non-mapping value" is false as stated. -/
theorem C5_counterexample :
    parseYaml (.ok (some (.ynum 42))) = .ok (.ynum 42) ∧
    yamlIsMapping (.ynum 42) = false ∧
    yamlTruthy (.ynum 42) = true :=
  ⟨rfl, rfl, rfl⟩

/-- Claim C5 (amended): parsing the front-matter block fails exactly when
the YAML load throws (malformed), returns `undefined` (empty block), or
returns a falsy value; truthy values — including truthy non-mappings such
as numbers, strings and arrays — are returned without any mapping
check. -/
theorem C5_parseYaml_falsy_only :
    (∀ r : Except String (Option YamlValue),
      (∃ e, parseYaml r = .error e) ↔
        (∃ e, r = .error e) ∨ r = .ok none ∨
          ∃ v, r = .ok (some v) ∧ yamlTruthy v = false) ∧
    (∀ v, yamlTruthy v = true → parseYaml (.ok (some v)) = .ok v) := by
  constructor
  · intro r
    cases r with
    | error e =>
      constructor
      · intro _
        exact Or.inl ⟨e, rfl⟩
      · intro _
        exact ⟨e, rfl⟩
    | ok o =>
      cases o with
      | none =>
        constructor
        · intro _
          exact Or.inr (Or.inl rfl)
        · intro _
          exact ⟨"YAML frontmatter is required but was empty or invalid", rfl⟩
      | some v =>
        have hpy : parseYaml (.ok (some v)) =
            if yamlTruthy v then .ok v
            else .error "YAML frontmatter is required but was empty or invalid" := rfl
        by_cases ht : yamlTruthy v = true
        · constructor
          · rintro ⟨e, he⟩
            rw [hpy, if_pos ht] at he
            cases he
          · rintro (⟨e, he⟩ | he | ⟨v2, hv2, hf⟩)
            · cases he
            · injection he with h2
              cases h2
            · injection hv2 with h2
              injection h2 with h3
              subst h3
              exact absurd ht (by rw [hf]; exact Bool.false_ne_true)
        · have ht2 : yamlTruthy v = false := by
            cases hh : yamlTruthy v
            · rfl
            · exact absurd hh ht
          constructor
          · intro _
            exact Or.inr (Or.inr ⟨v, rfl, ht2⟩)
          · intro _
            refine ⟨"YAML frontmatter is required but was empty or invalid", ?_⟩
            rw [hpy, if_neg (by rw [ht2]; exact Bool.false_ne_true)]
  · intro v hv
    rw [show parseYaml (.ok (some v)) =
      (if yamlTruthy v then .ok v
       else .error "YAML frontmatter is required but was empty or invalid") from rfl,
      if_pos hv]

/-- Claim C5 witness: a mapping value is truthy and accepted. -/
theorem C5_parseYaml_falsy_only_witness :
    yamlTruthy (.ymap []) = true ∧
    parseYaml (.ok (some (.ymap []))) = .ok (.ymap []) :=
  ⟨rfl, C5_parseYaml_falsy_only.2 (.ymap []) rfl⟩

/-- Claim C6 counterexample: on the text `&lt;`, escaping then decoding
yields `<`, not the original text, because `decodeHtmlEntities` replaces
`&amp;` first and then re-decodes the resurrected `&lt;`.  The claimed
round trip fails for this text. -/
theorem C6_counterexample :
    decodeHtmlEntities (escapeHtml ("&lt;".toList)) = ("<".toList) ∧
    ("<".toList) ≠ ("&lt;".toList) := by
  constructor
  · decide
  · decide

/-- Claim C6 (amended): `decodeHtmlEntities (escapeHtml text) = text`
holds for every text — including text containing the characters
`& < > " '` — provided the text does not already contain one of the six
decodable entity spellings `&lt; &gt; &quot; &#39; &#x27; &#x2F;`
(texts containing them double-decode, see the counterexample). -/
theorem C6_escape_decode_roundtrip (t : List Char)
    (hlt : occursIn ("&lt;".toList) t = false)
    (hgt : occursIn ("&gt;".toList) t = false)
    (hquot : occursIn ("&quot;".toList) t = false)
    (h39 : occursIn ("&#39;".toList) t = false)
    (hx27 : occursIn ("&#x27;".toList) t = false)
    (hx2F : occursIn ("&#x2F;".toList) t = false) :
    decodeHtmlEntities (escapeHtml t) = t :=
  decode_escape_of_no_entities t hlt hgt hquot h39 hx27 hx2F

/-- Claim C6 witness: the round trip on a concrete text containing all
five escaped characters. -/
theorem C6_escape_decode_roundtrip_witness :
    decodeHtmlEntities (escapeHtml (("Tom & Jerry <3 \"quotes\"".toList) ++ [apos])) =
      ("Tom & Jerry <3 \"quotes\"".toList) ++ [apos] :=
  C6_escape_decode_roundtrip (("Tom & Jerry <3 \"quotes\"".toList) ++ [apos])
    (by decide) (by decide) (by decide) (by decide) (by decide) (by decide)

/-- Claim C8 counterexample: an entry whose front matter omits `sticky`
(the field is optional in `EntryMetaBase`, and `getEntryList` sorts
before `applyDefaults` fills it in, so the comparator sees `undefined`,
i.e. `none`) against an entry with an explicit `sticky: false`.  The
strict inequality `undefined !== false` holds and `undefined` is falsy,
so `compareEntries` returns `1` in *both* argument orders: the claimed
antisymmetry (and with it the total order) fails. -/
theorem C8_counterexample :
    compareEntries
        ⟨"omitted", "", ⟨"t", "2024-01-01", none, none⟩⟩
        ⟨"explicit", "", ⟨"t", "2024-01-01", none, some false⟩⟩ = 1 ∧
    compareEntries
        ⟨"explicit", "", ⟨"t", "2024-01-01", none, some false⟩⟩
        ⟨"omitted", "", ⟨"t", "2024-01-01", none, none⟩⟩ = 1 ∧
    compareEntries
        ⟨"omitted", "", ⟨"t", "2024-01-01", none, none⟩⟩
        ⟨"explicit", "", ⟨"t", "2024-01-01", none, some false⟩⟩ ≠
      -compareEntries
        ⟨"explicit", "", ⟨"t", "2024-01-01", none, some false⟩⟩
        ⟨"omitted", "", ⟨"t", "2024-01-01", none, none⟩⟩ :=
  ⟨by decide, by decide, by decide⟩

/-- Claim C8 (amended): `compareEntries` sorts entries with `sticky:
true` before entries whose `sticky` is anything else, then greater
`published` first, then greater slug first, and compares equal only
when stickiness, published date and slug all coincide; transitivity of
`< 0` holds unconditionally, but antisymmetry holds only when the two
entries are not an `undefined`-vs-`false` sticky pair (in either
order), since `undefined !== false` with `undefined` falsy makes the
comparator return `1` both ways on such a pair. -/
theorem C8_compareEntries_order :
    (∀ a b : EntryM, a.meta.sticky = some true → b.meta.sticky ≠ some true →
      compareEntries a b < 0) ∧
    (∀ a b : EntryM, a.meta.sticky = b.meta.sticky →
      b.meta.published < a.meta.published → compareEntries a b < 0) ∧
    (∀ a b : EntryM, a.meta.sticky = b.meta.sticky →
      a.meta.published = b.meta.published → b.slug < a.slug →
      compareEntries a b < 0) ∧
    (∀ a b : EntryM, (a.meta.sticky = none → b.meta.sticky ≠ some false) →
      (a.meta.sticky = some false → b.meta.sticky ≠ none) →
      compareEntries a b = -compareEntries b a) ∧
    (∀ a b c : EntryM, compareEntries a b < 0 → compareEntries b c < 0 →
      compareEntries a c < 0) ∧
    (∀ a b : EntryM, compareEntries a b = 0 →
      a.meta.sticky = b.meta.sticky ∧ a.meta.published = b.meta.published ∧
        a.slug = b.slug) := by
  refine ⟨?_, ?_, ?_, ?_, ?_, ?_⟩
  · intro a b h1 h2
    exact (compareEntries_neg_iff a b).mpr
      (Or.inl ⟨fun h => h2 (h.symm.trans h1), h1⟩)
  · intro a b h1 h2
    exact (compareEntries_neg_iff a b).mpr (Or.inr (Or.inl ⟨h1, h2⟩))
  · intro a b h1 h2 h3
    exact (compareEntries_neg_iff a b).mpr (Or.inr (Or.inr ⟨h1, h2, h3⟩))
  · exact compareEntries_antisymm
  · intro a b c h1 h2
    exact compareEntries_trans h1 h2
  · intro a b h
    exact (compareEntries_zero_iff a b).mp h

/-- Claim C8 witness: the ordering on concrete entries — `sticky-old`
(sticky, 2020) sorts before `normal-new` (2025), which sorts before
`normal-old` (2020); transitivity chains the two, and antisymmetry
holds for the sticky-vs-false pair, which is not an
`undefined`-vs-`false` pair. -/
theorem C8_compareEntries_order_witness :
    compareEntries
        ⟨"sticky-old", "", ⟨"t", "2020-01-01", none, some true⟩⟩
        ⟨"normal-new", "", ⟨"t", "2025-01-01", none, some false⟩⟩ < 0 ∧
    compareEntries
        ⟨"normal-new", "", ⟨"t", "2025-01-01", none, some false⟩⟩
        ⟨"normal-old", "", ⟨"t", "2020-01-01", none, some false⟩⟩ < 0 ∧
    compareEntries
        ⟨"sticky-old", "", ⟨"t", "2020-01-01", none, some true⟩⟩
        ⟨"normal-old", "", ⟨"t", "2020-01-01", none, some false⟩⟩ < 0 ∧
    compareEntries
        ⟨"sticky-old", "", ⟨"t", "2020-01-01", none, some true⟩⟩
        ⟨"normal-new", "", ⟨"t", "2025-01-01", none, some false⟩⟩ =
      -compareEntries
        ⟨"normal-new", "", ⟨"t", "2025-01-01", none, some false⟩⟩
        ⟨"sticky-old", "", ⟨"t", "2020-01-01", none, some true⟩⟩ := by
  refine ⟨?_, ?_, ?_, ?_⟩
  · exact C8_compareEntries_order.1 _ _ rfl (by decide)
  · exact C8_compareEntries_order.2.1 _ _ rfl
      (by rw [String.lt_iff_toList_lt]; decide)
  · exact C8_compareEntries_order.2.2.2.2.1
      ⟨"sticky-old", "", ⟨"t", "2020-01-01", none, some true⟩⟩
      ⟨"normal-new", "", ⟨"t", "2025-01-01", none, some false⟩⟩
      ⟨"normal-old", "", ⟨"t", "2020-01-01", none, some false⟩⟩
      (C8_compareEntries_order.1 _ _ rfl (by decide))
      (C8_compareEntries_order.2.1 _ _ rfl
        (by rw [String.lt_iff_toList_lt]; decide))
  · exact C8_compareEntries_order.2.2.2.1
      ⟨"sticky-old", "", ⟨"t", "2020-01-01", none, some true⟩⟩
      ⟨"normal-new", "", ⟨"t", "2025-01-01", none, some false⟩⟩
      (by decide) (by decide)

/-- Claim C1 counterexample: with body `[[toc]][[toc]]` (no heading after
the first marker, so the generated TOC is empty), `compileMarkdown`'s
TOC stage replaces only the *first* occurrence — the second `[[toc]]`
survives — whereas replacing every occurrence would yield the empty
body.  The claim that every occurrence is replaced is false. -/
theorem C1_counterexample :
    compileMarkdownToc ("[[toc]][[toc]]".toList) = ("[[toc]]".toList) ∧
    replaceAllL TOC_MARKER (generateToc ("[[toc]][[toc]]".toList))
      ("[[toc]][[toc]]".toList) = [] ∧
    compileMarkdownToc ("[[toc]][[toc]]".toList) ≠
      replaceAllL TOC_MARKER (generateToc ("[[toc]][[toc]]".toList))
        ("[[toc]][[toc]]".toList) := by
  refine ⟨by decide, by decide, by decide⟩

/-- Claim C1 (amended): writing the body as `u ++ [[toc]] ++ v` with the
first marker occurrence at the end of `u`, the generated TOC is computed
from the headings of `v` alone (only content after the first occurrence
is scanned), and the TOC stage replaces only that first occurrence:
the output is `u ++ toc ++ v`, so any further markers inside `v` remain
verbatim. -/
theorem C1_toc_first_occurrence (u v : List Char)
    (hu : ∀ i, i < u.length →
      TOC_MARKER.isPrefixOf ((u ++ TOC_MARKER ++ v).drop i) = false) :
    generateToc (u ++ TOC_MARKER ++ v) = tocFromHeadings (parseHeadings v) ∧
    compileMarkdownToc (u ++ TOC_MARKER ++ v) =
      u ++ tocFromHeadings (parseHeadings v) ++ v := by
  have hm : TOC_MARKER ≠ [] := by decide
  have hafter : afterFirstL TOC_MARKER (u ++ TOC_MARKER ++ v) = some v :=
    afterFirstL_leftmost TOC_MARKER u v hm hu
  have hgen : generateToc (u ++ TOC_MARKER ++ v) =
      tocFromHeadings (parseHeadings v) := by
    rw [generateToc, hafter]
  refine ⟨hgen, ?_⟩
  rw [compileMarkdownToc, if_pos (occursIn_of_append TOC_MARKER u v hm), hgen]
  exact replaceFirstL_leftmost TOC_MARKER _ u v hm hu

/-- Claim C1 witness: the amended statement at a concrete document whose
suffix contains headings and a second marker. -/
theorem C1_toc_first_occurrence_witness :
    compileMarkdownToc (("before\n".toList) ++ TOC_MARKER ++
        ("\n## Alpha\n\nmid [[toc]] end\n\n### Beta\n\n# Top\n".toList)) =
      ("before\n".toList) ++
        tocFromHeadings (parseHeadings
          ("\n## Alpha\n\nmid [[toc]] end\n\n### Beta\n\n# Top\n".toList)) ++
        ("\n## Alpha\n\nmid [[toc]] end\n\n### Beta\n\n# Top\n".toList) :=
  (C1_toc_first_occurrence ("before\n".toList)
    ("\n## Alpha\n\nmid [[toc]] end\n\n### Beta\n\n# Top\n".toList)
    (by decide)).2

/-- Claim C2: the per-href rewrite of `transformRelativeLinks`: absolute
hrefs pass through unchanged; a non-absolute href is split at the `#`,
the path part is resolved against the link base path with POSIX
semantics (a bare fragment resolves to the base path itself), and the
fragment is reattached; with base `/blog/a`, `#s` becomes `/blog/a#s`,
`../b` becomes `/blog/b` and `../b#s` becomes `/blog/b#s`. -/
theorem C2_link_rewrite :
    (∀ base href : List Char, isAbsoluteUrl href = true →
      transformHref base href = href) ∧
    (∀ base f : List Char, '#' ∉ f → isAbsoluteUrl ('#' :: f) = false →
      transformHref base ('#' :: f) = base ++ '#' :: f) ∧
    (∀ base p f : List Char, p ≠ [] → '#' ∉ p → '#' ∉ f →
      isAbsoluteUrl (p ++ '#' :: f) = false →
      transformHref base (p ++ '#' :: f) =
        posixResolve (base ++ ['/']) p ++ '#' :: f) ∧
    (∀ base p : List Char, p ≠ [] → '#' ∉ p → isAbsoluteUrl p = false →
      transformHref base p = posixResolve (base ++ ['/']) p) ∧
    transformHref ("/blog/a".toList) ("#s".toList) = ("/blog/a#s".toList) ∧
    transformHref ("/blog/a".toList) ("../b".toList) = ("/blog/b".toList) ∧
    transformHref ("/blog/a".toList) ("../b#s".toList) = ("/blog/b#s".toList) := by
  refine ⟨?_, ?_, ?_, ?_, by decide, by decide, by decide⟩
  · intro base href h
    rw [transformHref, if_pos h]
  · intro base f hf habs
    rw [transformHref, if_neg (by rw [habs]; exact Bool.false_ne_true),
      if_pos (occursIn_single_true '#' _ (List.mem_cons_self '#' f))]
    have hsplit : splitOnChar '#' ('#' :: f) = [] :: [f] := by
      rw [splitOnChar, if_pos rfl, splitOnChar_no_sep '#' f hf]
    rw [hsplit]
    simp only [List.headD_cons, List.drop_succ_cons, List.drop_zero]
    rw [if_neg (by simp)]
  · intro base p f hp hcp hcf habs
    rw [transformHref, if_neg (by rw [habs]; exact Bool.false_ne_true),
      if_pos (occursIn_single_true '#' _
        (List.mem_append.mpr (Or.inr (List.mem_cons_self '#' f))))]
    have hsplit : splitOnChar '#' (p ++ '#' :: f) = p :: [f] := by
      rw [splitOnChar_append '#' p f hcp, splitOnChar_no_sep '#' f hcf]
    rw [hsplit]
    simp only [List.headD_cons, List.drop_succ_cons, List.drop_zero]
    rw [if_pos (by simpa using hp)]
  · intro base p hp hcp habs
    rw [transformHref, if_neg (by rw [habs]; exact Bool.false_ne_true),
      if_neg (by rw [occursIn_single_false '#' p hcp]; exact Bool.false_ne_true),
      if_pos (by simpa using hp)]

/-- Claim C2 witness: the general clauses at concrete inputs. -/
theorem C2_link_rewrite_witness :
    transformHref ("/x".toList) ("https://y/z".toList) = ("https://y/z".toList) ∧
    transformHref ("/blog/a".toList) ('#' :: ("sec".toList)) =
      ("/blog/a".toList) ++ '#' :: ("sec".toList) ∧
    transformHref ("/blog/a".toList) (("sub/p".toList) ++ '#' :: ("s2".toList)) =
      posixResolve (("/blog/a".toList) ++ ['/']) ("sub/p".toList) ++
        '#' :: ("s2".toList) ∧
    transformHref ("/blog/a".toList) ("img.png".toList) =
      posixResolve (("/blog/a".toList) ++ ['/']) ("img.png".toList) :=
  ⟨C2_link_rewrite.1 _ _ (by decide),
   C2_link_rewrite.2.1 _ _ (by decide) (by decide),
   C2_link_rewrite.2.2.1 _ _ _ (by decide) (by decide) (by decide) (by decide),
   C2_link_rewrite.2.2.2.1 _ _ (by decide) (by decide) (by decide)⟩

/-- Claim C10: for a non-absolute href with two or more `#` characters,
the rewrite keeps only the path part and the segment between the first
and second `#`: the result is the POSIX resolution of the path part
(or the base path itself when the path part is empty) followed by `#`
and the first fragment segment; everything from the second `#` on is
dropped. -/
theorem C10_multi_hash (base p f rest : List Char) (hcp : '#' ∉ p)
    (hcf : '#' ∉ f)
    (habs : isAbsoluteUrl (p ++ '#' :: (f ++ '#' :: rest)) = false) :
    transformHref base (p ++ '#' :: (f ++ '#' :: rest)) =
      (if p = [] then base else posixResolve (base ++ ['/']) p) ++ '#' :: f := by
  rw [transformHref, if_neg (by rw [habs]; exact Bool.false_ne_true),
    if_pos (occursIn_single_true '#' _
      (List.mem_append.mpr (Or.inr (List.mem_cons_self '#' _))))]
  have hsplit : splitOnChar '#' (p ++ '#' :: (f ++ '#' :: rest)) =
      p :: f :: splitOnChar '#' rest := by
    rw [splitOnChar_append '#' p _ hcp, splitOnChar_append '#' f rest hcf]
  rw [hsplit]
  simp only [List.headD_cons, List.drop_succ_cons, List.drop_zero]
  by_cases hp : p = []
  · rw [if_pos hp, if_neg (by simp [hp])]
  · rw [if_neg hp, if_pos (by simpa using hp)]

/-- Claim C10 witness: `page#a#b` from `/blog/a` becomes
`/blog/a/page#a`; the trailing `#b` is dropped. -/
theorem C10_multi_hash_witness :
    transformHref ("/blog/a".toList)
        (("page".toList) ++ '#' :: (("a".toList) ++ '#' :: ("b".toList))) =
      (if ("page".toList) = ([] : List Char) then ("/blog/a".toList)
       else posixResolve (("/blog/a".toList) ++ ['/']) ("page".toList)) ++
        '#' :: ("a".toList) :=
  C10_multi_hash ("/blog/a".toList) ("page".toList) ("a".toList) ("b".toList)
    (by decide) (by decide) (by decide)

/-- Claim C3 counterexample: in the document `"---\na: b\n---"` both the
first and third line are exactly three dashes (separator lines in the
claim's sense), yet `separate` returns the whole input as Markdown with
an empty YAML block — the text between the two separator lines is *not*
returned as YAML, because the separator regex also consumes a line
terminator and the final `---` has none. -/
theorem C3_counterexample :
    (splitOnChar '\n' ("---\na: b\n---".toList)).map isDashLine =
      [true, false, true] ∧
    separate ("---\na: b\n---".toList) = (("---\na: b\n---".toList), []) ∧
    ([] : List Char) ≠ ("a: b\n".toList) := by
  refine ⟨by decide, by decide, by decide⟩

/-- Claim C3 (amended): `separate` splits at the first two
*newline-terminated* lines of exactly three dashes followed only by
spaces or tabs: for a document `---\n` + yaml lines + `---\n` + body
whose yaml lines are not dash lines, the yaml block is the text between
the separators and the body the text after the second; if either
(terminated) separator is missing the whole input is Markdown with an
empty YAML block; a blank line directly after the second separator does
not move the split; four dashes do not separate, and trailing spaces or
tabs on a separator line are allowed. -/
theorem C3_separate_newline_terminated :
    (∀ ls m, (∀ l ∈ ls, (∀ c ∈ l, c ≠ '\n' ∧ c ≠ '\x0d') ∧ isDashLine l = false) →
      separate ('-' :: '-' :: '-' :: '\n' ::
        (joinLines ls ++ '-' :: '-' :: '-' :: '\n' :: m)) = (m, joinLines ls)) ∧
    (∀ s, findSep true s = none → separate s = (s, [])) ∧
    (∀ s i l, findSep true s = some (i, l) →
      findSep true (s.drop (i + l)) = none → separate s = (s, [])) ∧
    separate ("---\ntitle: x\n---\n\nbody".toList) =
      (("\nbody".toList), ("title: x\n".toList)) ∧
    separate ("----\na\n----\nb".toList) = (("----\na\n----\nb".toList), []) ∧
    separate ("--- \t\nx\n---\ny".toList) = (("y".toList), ("x\n".toList)) := by
  refine ⟨separate_split, ?_, ?_, by decide, by decide, by decide⟩
  · intro s h
    simp only [separate, h]
  · intro s i l h1 h2
    simp only [separate, h1, h2]

/-- Claim C3 witness: the amended statement at concrete documents. -/
theorem C3_separate_newline_terminated_witness :
    separate ('-' :: '-' :: '-' :: '\n' ::
        (joinLines [("a: b".toList)] ++ '-' :: '-' :: '-' :: '\n' ::
          ("body".toList))) = (("body".toList), joinLines [("a: b".toList)]) ∧
    separate ("plain text".toList) = (("plain text".toList), []) ∧
    separate ("---\nonly one".toList) = (("---\nonly one".toList), []) :=
  ⟨C3_separate_newline_terminated.1 [("a: b".toList)] ("body".toList) (by decide),
   C3_separate_newline_terminated.2.1 ("plain text".toList) (by decide),
   C3_separate_newline_terminated.2.2.1 ("---\nonly one".toList) 0 4
     (by decide) (by decide)⟩

/-- Claim C7: evaluation at the failing input.  The anchor-link regex
captures the fragment `%` from `<a href="#%">x</a>`; `decodeURIComponent`
of `"%"` throws a `URIError` (modelled as `none`), so `registerLinks`
raises instead of returning — contradicting both the claim and the
validator's own "non-blocking, does not fail the build" documentation.
A well-formed percent-encoded fragment decodes fine. -/
theorem C7_registerLinks_uriError :
    extractAnchorLinks ("<a href=\"#%\">x</a>".toList) = [("#%".toList)] ∧
    decodeURIComponentM ("%".toList) = none ∧
    registerLinksM ("/blog/a".toList) ("<a href=\"#%\">x</a>".toList) =
      .error () ∧
    registerLinksM ("/blog/a".toList)
        ("<a href=\"/blog/b#se%C3%A4c\">x</a>".toList) =
      .ok [{ fromPath := ("/blog/a".toList), toPath := ("/blog/b".toList),
             anchor := ("seäc".toList),
             fullLink := ("/blog/b#se%C3%A4c".toList) }] :=
  ⟨rfl, rfl, rfl, rfl⟩

/-- Claim C9: `extractFirstBigParagraph` strips `<img>` tags, collects
the `<p ...>...</p>` blocks, and returns (anchor-unwrapped) the first
block whose tag-stripped text exceeds 100 characters, else the first
block, else the empty string; concretely, of two consecutive paragraphs
where only the second exceeds 100 characters the second is returned with
its original attributes, when neither exceeds 100 the first is returned,
and anchors are unwrapped to their inner text. -/
theorem C9_extract_first_big_paragraph :
    (∀ html pre m post, html ≠ [] →
      pMatches (stripImgTags html) = pre ++ m :: post →
      (∀ m2 ∈ pre, bigParagraph m2 = false) → bigParagraph m = true →
      extractFirstBigParagraph html = unwrapAnchors m) ∧
    (∀ html m ms, html ≠ [] →
      pMatches (stripImgTags html) = m :: ms →
      (∀ m2 ∈ m :: ms, bigParagraph m2 = false) →
      extractFirstBigParagraph html = unwrapAnchors m) ∧
    (∀ html, pMatches (stripImgTags html) = [] →
      extractFirstBigParagraph html = []) ∧
    extractFirstBigParagraph
        ("<p>Short</p><p class=\"x\">This is a much longer paragraph that contains more than one hundred characters to ensure it meets the minimum length requirement.</p>".toList) =
      ("<p class=\"x\">This is a much longer paragraph that contains more than one hundred characters to ensure it meets the minimum length requirement.</p>".toList) ∧
    extractFirstBigParagraph ("<p>first short</p><p>second short</p>".toList) =
      ("<p>first short</p>".toList) ∧
    extractFirstBigParagraph
        ("<img src=\"i.png\"><p>with <a href=\"y\">a link</a> inside</p>".toList) =
      ("<p>with a link inside</p>".toList) := by
  refine ⟨?_, ?_, ?_, by decide, by decide, by decide⟩
  · intro html pre m post hn hm hpre hbig
    rw [extractFirstBigParagraph, if_neg hn,
      if_neg (by rw [hm]; simp), hm,
      find?_first_of_split bigParagraph pre m post hpre hbig]
  · intro html m ms hn hm hall
    have hnone : (m :: ms).find? bigParagraph = none := by
      rw [List.find?_eq_none]
      intro x hx
      rw [hall x hx]
      exact Bool.false_ne_true
    rw [extractFirstBigParagraph, if_neg hn, if_neg (by rw [hm]; simp), hm, hnone]
    rfl
  · intro html h
    by_cases hn : html = []
    · rw [extractFirstBigParagraph, if_pos hn]
    · rw [extractFirstBigParagraph, if_neg hn, if_pos h]

/-- Claim C9 witness: the selection clauses at concrete inputs. -/
theorem C9_extract_first_big_paragraph_witness :
    extractFirstBigParagraph ("<p>tiny</p><p>aaaaaaaaaaaaaaaaaaaaaaaaaaaaaaaaaaaaaaaaaaaaaaaaaaaaaaaaaaaaaaaaaaaaaaaaaaaaaaaaaaaaaaaaaaaaaaaaaaaaaaaaaaaaaa</p>".toList) =
      unwrapAnchors ("<p>aaaaaaaaaaaaaaaaaaaaaaaaaaaaaaaaaaaaaaaaaaaaaaaaaaaaaaaaaaaaaaaaaaaaaaaaaaaaaaaaaaaaaaaaaaaaaaaaaaaaaaaaaaaaaa</p>".toList) ∧
    extractFirstBigParagraph ("<p>one</p><p>two</p>".toList) =
      unwrapAnchors ("<p>one</p>".toList) ∧
    extractFirstBigParagraph ("no paragraph".toList) = [] :=
  ⟨C9_extract_first_big_paragraph.1 ("<p>tiny</p><p>aaaaaaaaaaaaaaaaaaaaaaaaaaaaaaaaaaaaaaaaaaaaaaaaaaaaaaaaaaaaaaaaaaaaaaaaaaaaaaaaaaaaaaaaaaaaaaaaaaaaaaaaaaaaaa</p>".toList)
      [("<p>tiny</p>".toList)] ("<p>aaaaaaaaaaaaaaaaaaaaaaaaaaaaaaaaaaaaaaaaaaaaaaaaaaaaaaaaaaaaaaaaaaaaaaaaaaaaaaaaaaaaaaaaaaaaaaaaaaaaaaaaaaaaaa</p>".toList) []
      (by decide) (by decide) (by decide) (by decide),
   C9_extract_first_big_paragraph.2.1 ("<p>one</p><p>two</p>".toList)
      ("<p>one</p>".toList) [("<p>two</p>".toList)]
      (by decide) (by decide) (by decide),
   C9_extract_first_big_paragraph.2.2.1 ("no paragraph".toList) (by decide)⟩

end SiteBuild
